import Mathlib

/- Verification development for the CAPTCHA recognition engine of this
   repository (src/captcha.py: class CaptchaRecognizer, its helper
   methods, and the module-level loader).

   Embedding conventions:
   * numpy boolean 2-d arrays are embedded as `Bitmap`: an explicit
     height and width together with a total pixel function; reads that
     the array semantics would forbid are sanitized to `false`.
   * the third-party calls are embedded by their documented semantics:
     `scipy.ndimage.label` with its default structuring element is
     4-connected component labeling, components numbered in raster order
     of their first pixel (embedded as a saturation loop `sat`);
     `scipy.ndimage.find_objects` yields per-label bounding boxes
     (embedded as `charBitmap`); `scipy.ndimage.median_filter` with
     size 3 on a boolean array is a 3x3 majority vote with the reflect
     border mode (index -1 maps to 0, index n maps to n-1).
   * `PIL.Image.resize(..., LANCZOS)` produces bytes that depend on
     Pillow's floating-point convolution kernel; the development is
     therefore parameterized by an arbitrary byte-valued resampling
     function (`Resample`).  None of the structural claims below depends
     on the kernel values.  Pillow raises ValueError ("height and width
     must be > 0") when a requested target dimension is zero; the
     constructor `NormOut.raised` records that exception path.
   * the Python float expressions `scale = min(40/h, 40/w)` and
     `int(h*scale)` are embedded over exact rationals.
   * Python exceptions escaping a function are embedded as `Except`
     error values; `pickle.load` is embedded as an `Except` outcome and
     the file-existence check of `os.path.exists` as an `Option`.
-/

namespace Captcha

/-- A pixel coordinate: (row, column). -/
abbrev Pix := Nat × Nat

/-- A 2-d boolean array (numpy bool array): dimensions plus pixel data. -/
@[ext]
structure Bitmap where
  h : Nat
  w : Nat
  data : Nat → Nat → Bool

instance : Inhabited Bitmap := ⟨⟨0, 0, fun _ _ => false⟩⟩

/-- In-bounds foreground test for a mask pixel. -/
def maskAt (m : Bitmap) (p : Pix) : Bool :=
  decide (p.1 < m.h) && decide (p.2 < m.w) && m.data p.1 p.2

/-- The 4-neighborhood of a pixel (up, down, left, right; no diagonals),
restricted to coordinates that exist in the Nat grid. -/
def nbrs (p : Pix) : List Pix :=
  [(p.1 + 1, p.2), (p.1, p.2 + 1)]
    ++ (if 0 < p.1 then [(p.1 - 1, p.2)] else [])
    ++ (if 0 < p.2 then [(p.1, p.2 - 1)] else [])

/-- All coordinates of a mask, in raster (row-major) order. -/
def allPix (m : Bitmap) : List Pix :=
  (List.range m.h).flatMap fun i => (List.range m.w).map fun j => (i, j)

/-- Row-major linear index of a pixel (used as a bit position: pixel
sets are represented as Nat bit masks so the kernel can evaluate the
labeling on concrete inputs). -/
def pixIdx (m : Bitmap) (p : Pix) : Nat :=
  p.1 * m.w + p.2

/-- Membership of an in-bounds pixel in a bit-mask pixel set. -/
def memB (S : Nat) (m : Bitmap) (p : Pix) : Bool :=
  decide (p.1 < m.h) && decide (p.2 < m.w) && S.testBit (pixIdx m p)

/-- One saturation step of component growth: adjoin every foreground
pixel that is 4-adjacent to the current pixel set. -/
def expand (m : Bitmap) (S : Nat) : Nat :=
  (allPix m).foldl
    (fun T q =>
      if maskAt m q && !(memB S m q) && ((nbrs q).any fun p => memB S m p)
      then T ||| (1 <<< pixIdx m q) else T)
    S

/-- Iterate `expand` until it adds nothing (fuel-bounded). -/
def sat (m : Bitmap) : Nat → Nat → Nat
  | 0, S => S
  | n + 1, S => if expand m S = S then S else sat m n (expand m S)

/-- The pixel set of the 4-connected component of the seed `p`. -/
def compBits (m : Bitmap) (p : Pix) : Nat :=
  sat m (m.h * m.w) (1 <<< pixIdx m p)

/-- The raster-ordered pixel list of a bit-mask pixel set. -/
def compOfBits (m : Bitmap) (cb : Nat) : List Pix :=
  (allPix m).filter fun q => memB cb m q

/-- The 4-connected component of the seed pixel `p` in mask `m`, as the
raster-ordered pixel list (the set of pixels sharing the label that
`scipy.ndimage.label` assigns to `p`). -/
def comp (m : Bitmap) (p : Pix) : List Pix :=
  compOfBits m (compBits m p)

/-- The bit set of all foreground pixels of a mask. -/
def trueBits (m : Bitmap) : Nat :=
  (allPix m).foldl (fun T q => if maskAt m q then T ||| (1 <<< pixIdx m q) else T) 0

/-- Position of the least significant set bit (fuel-bounded binary
recursion; adequate fuel is any bound above that position). -/
def lowBitF : Nat → Nat → Nat
  | 0, _ => 0
  | f + 1, n => if n % 2 = 1 then 0 else lowBitF f (n / 2) + 1

/-- The pixel whose row-major linear index is `k`. -/
def pixOf (m : Bitmap) (k : Nat) : Pix :=
  (k / m.w, k % m.w)

/-- Emit components until every foreground pixel is labeled: the next
seed is always the raster-first (lowest-index) still-unlabeled
foreground pixel, so components appear in raster order of their first
pixel, exactly the numbering `scipy.ndimage.label` uses. -/
def compsAux (m : Bitmap) : Nat → Nat → List (List Pix)
  | 0, _ => []
  | fuel + 1, rest =>
    if rest = 0 then []
    else
      let cb := compBits m (pixOf m (lowBitF (m.h * m.w) rest))
      compOfBits m cb :: compsAux m fuel (rest &&& (rest ^^^ cb))

/-- The connected components of a mask, in raster order of their first
pixel: the embedding of `nd.label` plus the per-label pixel sets. -/
def componentsOf (m : Bitmap) : List (List Pix) :=
  compsAux m (m.h * m.w) (trueBits m)

/-- Minimum of a list of Nat, 0 for the empty list. -/
def minD : List Nat → Nat
  | [] => 0
  | x :: xs => xs.foldl min x

/-- Maximum of a list of Nat, 0 for the empty list. -/
def maxD : List Nat → Nat
  | [] => 0
  | x :: xs => xs.foldl max x

/-- The local boolean mask of one labeled region restricted to its
bounding box: `nd.find_objects` followed by `labels[obj] == (i + 1)`. -/
def charBitmap (c : List Pix) : Bitmap :=
  let rmin := minD (c.map Prod.fst)
  let rmax := maxD (c.map Prod.fst)
  let cmin := minD (c.map Prod.snd)
  let cmax := maxD (c.map Prod.snd)
  ⟨rmax + 1 - rmin, cmax + 1 - cmin, fun i j => c.contains (rmin + i, cmin + j)⟩

/-- Insert into a key-sorted list after all entries of less-or-equal
key (the placement Python's stable `list.sort` gives a later element). -/
def insertLe (x : Nat × Bitmap) : List (Nat × Bitmap) → List (Nat × Bitmap)
  | [] => [x]
  | y :: ys => if y.1 ≤ x.1 then y :: insertLe x ys else x :: y :: ys

/-- Python `valid_chars.sort(key=lambda x: x[0])`: stable ascending sort
on the first projection. -/
def pySort (l : List (Nat × Bitmap)) : List (Nat × Bitmap) :=
  l.foldl (fun acc x => insertLe x acc) []

/-- Body of `_extract_characters` before the final projection: label the
mask, keep each region whose bounding box has `h > 5 and w > 2` paired
with `obj[1].start` (its starting column), and sort by that column. -/
def validChars (m : Bitmap) : List (Nat × Bitmap) :=
  pySort ((componentsOf m).filterMap fun c =>
    let b := charBitmap c
    if 5 < b.h && 2 < b.w then some (minD (c.map Prod.snd), b) else none)

/-- `CaptchaRecognizer._extract_characters`: the ordered glyph-candidate
masks. -/
def extract_characters (m : Bitmap) : List Bitmap :=
  (validChars m).map Prod.snd

/-- A normalized 40x40 glyph (`result` array of `_normalize_char`). -/
abbrev Glyph := Nat → Nat → Bool

/-- The bytes of `np.array(img.resize((new_w, new_h), LANCZOS))`:
given the cropped source mask and the target dimensions, a byte for
each target coordinate.  Stands for Pillow's resampling kernel. -/
abbrev Resample := Bitmap → Nat → Nat → Nat → Nat → Nat

/-- Outcome of `_normalize_char`: the `None` return for an all-false
input, the ValueError Pillow raises when a target dimension is zero, or
the normalized glyph. -/
inductive NormOut where
  | noForm
  | raised
  | ok (g : Glyph)

/-- Row `i` of the array has a foreground pixel (`np.any(a, axis=1)`). -/
def rowsAny (a : Bitmap) (i : Nat) : Bool :=
  (List.range a.w).any fun j => a.data i j

/-- Column `j` of the array has a foreground pixel (`np.any(a, axis=0)`). -/
def colsAny (a : Bitmap) (j : Nat) : Bool :=
  (List.range a.h).any fun i => a.data i j

/-- Index of the first true entry below `n` (`np.where(f)[0][0]`). -/
def firstTrue (n : Nat) (f : Nat → Bool) : Nat :=
  ((List.range n).filter f).headD 0

/-- Index of the last true entry below `n` (`np.where(f)[0][-1]`). -/
def lastTrue (n : Nat) (f : Nat → Bool) : Nat :=
  ((List.range n).filter f).getLastD 0

/-- `rmin`: first row of the tight bounding box. -/
def rminOf (a : Bitmap) : Nat := firstTrue a.h (rowsAny a)

/-- `rmax`: last row of the tight bounding box. -/
def rmaxOf (a : Bitmap) : Nat := lastTrue a.h (rowsAny a)

/-- `cmin`: first column of the tight bounding box. -/
def cminOf (a : Bitmap) : Nat := firstTrue a.w (colsAny a)

/-- `cmax`: last column of the tight bounding box. -/
def cmaxOf (a : Bitmap) : Nat := lastTrue a.w (colsAny a)

/-- `cropped = char_arr[rmin:rmax+1, cmin:cmax+1]`. -/
def cropOf (a : Bitmap) : Bitmap :=
  ⟨rmaxOf a + 1 - rminOf a, cmaxOf a + 1 - cminOf a, fun i j =>
    decide (i < rmaxOf a + 1 - rminOf a) && decide (j < cmaxOf a + 1 - cminOf a)
      && a.data (rminOf a + i) (cminOf a + j)⟩

/-- `scale = min(40/h, 40/w)` over exact rationals. -/
def scaleOf (a : Bitmap) : ℚ :=
  min ((40 : ℚ) / ((cropOf a).h : ℚ)) ((40 : ℚ) / ((cropOf a).w : ℚ))

/-- `new_h = int(h * scale)`. -/
def newHOf (a : Bitmap) : Nat :=
  (⌊((cropOf a).h : ℚ) * scaleOf a⌋).toNat

/-- `new_w = int(w * scale)`. -/
def newWOf (a : Bitmap) : Nat :=
  (⌊((cropOf a).w : ℚ) * scaleOf a⌋).toNat

/-- `CaptchaRecognizer._normalize_char`, parameterized by the
resampling kernel: tight re-crop, uniform rational scale
`min(40/h, 40/w)`, truncated scaled dimensions, resample, re-binarize
at byte threshold `> 128`, and paste centered into a 40x40 zero canvas.
A zero target dimension makes Pillow's resize raise. -/
def normalize_char (r : Resample) (a : Bitmap) : NormOut :=
  if !((List.range a.h).any (rowsAny a)) || !((List.range a.w).any (colsAny a)) then
    .noForm
  else if newHOf a = 0 || newWOf a = 0 then
    .raised
  else
    .ok fun i j =>
      decide ((40 - newHOf a) / 2 ≤ i) && decide (i < (40 - newHOf a) / 2 + newHOf a)
        && decide ((40 - newWOf a) / 2 ≤ j) && decide (j < (40 - newWOf a) / 2 + newWOf a)
        && decide (128 < r (cropOf a) (newHOf a) (newWOf a)
            (i - (40 - newHOf a) / 2) (j - (40 - newWOf a) / 2))

/-- The template database: insertion-ordered mapping from label to the
stored reference bitmaps (`CaptchaTemplateDB.templates`). -/
abbrev TemplateDB := List (String × List Bitmap)

/-- The (label, template) pairs in the enumeration order of the Python
loop `for char, templates in self.db.templates.items(): for template in
templates:`. -/
def dbPairs (db : TemplateDB) : List (String × Bitmap) :=
  db.flatMap fun ct => ct.2.map fun t => (ct.1, t)

/-- Count of true entries of a predicate over the 40x40 grid. -/
def countGrid (f : Nat → Nat → Bool) : Nat :=
  ((List.range 40).map fun i => ((List.range 40).filter fun j => f i j).length).sum

/-- `np.sum(normalized & template)` for a 40x40 template. -/
def interCount (g : Glyph) (t : Bitmap) : Nat :=
  countGrid fun i j => g i j && t.data i j

/-- `np.sum(normalized | template)` for a 40x40 template. -/
def unionCount (g : Glyph) (t : Bitmap) : Nat :=
  countGrid fun i j => g i j || t.data i j

/-- `score = (intersection / union) if union > 0 else 0`. -/
def score (g : Glyph) (t : Bitmap) : ℚ :=
  if 0 < unionCount g t then (interCount g t : ℚ) / (unionCount g t : ℚ) else 0

/-- The classification loop of `recognize_char`: running best label and
best score, starting from `("?", -1)`, updated on strict improvement. -/
def bestFold (g : Glyph) (pairs : List (String × Bitmap)) : String × ℚ :=
  pairs.foldl
    (fun best ct => if best.2 < score g ct.2 then (ct.1, score g ct.2) else best)
    ("?", -1)

/-- `CaptchaRecognizer.recognize_char`: normalize, then classify; the
`None` branch yields the "?" marker; the Pillow exception propagates. -/
def recognize_char (r : Resample) (db : TemplateDB) (a : Bitmap) : Except Unit String :=
  match normalize_char r a with
  | .noForm => .ok "?"
  | .raised => .error ()
  | .ok g => .ok (bestFold g (dbPairs db)).1

/-- An RGB raster image: dimensions plus (r, g, b) bytes per pixel. -/
structure RGBImage where
  h : Nat
  w : Nat
  data : Nat → Nat → Nat × Nat × Nat

/-- The color threshold `(r > 100) & (g < 140) & (b < 140)`. -/
def threshAt (img : RGBImage) (i j : Nat) : Bool :=
  decide (100 < (img.data i j).1)
    && decide ((img.data i j).2.1 < 140) && decide ((img.data i j).2.2 < 140)

/-- Reflect-mode index for the filter border (-1 maps to 0, n to n-1). -/
def reflectIdx (n : Nat) (i : Int) : Nat :=
  if i < 0 then 0 else if (n : Int) ≤ i then n - 1 else i.toNat

/-- The nine offsets of a 3x3 window. -/
def window3 : List (Int × Int) :=
  [(-1, -1), (-1, 0), (-1, 1), (0, -1), (0, 0), (0, 1), (1, -1), (1, 0), (1, 1)]

/-- Number of foreground pixels of the thresholded mask inside the 3x3
reflected window centered at (i, j). -/
def medianCount (img : RGBImage) (i j : Nat) : Nat :=
  (window3.filter fun d =>
    threshAt img (reflectIdx img.h ((i : Int) + d.1)) (reflectIdx img.w ((j : Int) + d.2))).length

/-- `CaptchaRecognizer._extract_red_mask`: color thresholding followed
by `nd.median_filter(mask, size=3)` (majority of the 3x3 window). -/
def extract_red_mask (img : RGBImage) : Bitmap :=
  ⟨img.h, img.w, fun i j => decide (5 ≤ medianCount img i j)⟩

/-- `CaptchaRecognizer.recognize`: run the pipeline and concatenate the
per-glyph results left to right; a raised exception aborts the loop. -/
def recognize (r : Resample) (db : TemplateDB) (img : RGBImage) : Except Unit String :=
  (extract_characters (extract_red_mask img)).foldl
    (fun acc a =>
      match acc, recognize_char r db a with
      | .error e, _ => .error e
      | .ok s, .ok c => .ok (s ++ c)
      | .ok _, .error e => .error e)
    (.ok "")

/-- The recognizer object: just the loaded database. -/
structure CaptchaRecognizer where
  db : TemplateDB

/-- Outcomes of `load_recognizer`: the FileNotFoundError it raises
itself, or the exception `pickle.load` raises on corrupt data. -/
inductive LoadError where
  | fileNotFound
  | unpickling

/-- `load_recognizer`: `none` models a store file that does not exist
(`os.path.exists` false); `some (.error _)` a store whose
deserialization raises; `some (.ok db)` a store that deserializes to
`db`.  The source performs no validation after `pickle.load`. -/
def load_recognizer (store : Option (Except Unit TemplateDB)) :
    Except LoadError CaptchaRecognizer :=
  match store with
  | none => .error .fileNotFound
  | some (.error _) => .error .unpickling
  | some (.ok db) => .ok ⟨db⟩

/-- Every stored bitmap has the fixed 40x40 glyph shape. -/
def wellFormedB (db : TemplateDB) : Bool :=
  db.all fun ct => ct.2.all fun t => t.h == 40 && t.w == 40

/-! Spec-side notions used to state the claims, and concrete inputs for
witnesses and counterexamples. -/

/-- One 4-adjacency step between foreground pixels of a mask. -/
def stepP (m : Bitmap) (p q : Pix) : Prop :=
  maskAt m p = true ∧ maskAt m q = true ∧ q ∈ nbrs p

/-- 4-connectivity: a chain of 4-adjacency steps through foreground
pixels. -/
def connTo (m : Bitmap) (p q : Pix) : Prop :=
  Relation.ReflTransGen (stepP m) p q

/-- The spec's foreground rule: red above its threshold, green and blue
below theirs. -/
def specFG (img : RGBImage) (i j : Nat) : Prop :=
  100 < (img.data i j).1 ∧ (img.data i j).2.1 < 140 ∧ (img.data i j).2.2 < 140

instance (img : RGBImage) (i j : Nat) : Decidable (specFG img i j) := by
  unfold specFG
  infer_instance

/-- Two masks of the same dimensions agree on every in-bounds pixel. -/
def sameMask (a b : Bitmap) : Prop :=
  a.h = b.h ∧ a.w = b.w ∧ ∀ i j, i < a.h → j < a.w → a.data i j = b.data i j

/-- The mask holds at least one in-bounds foreground pixel. -/
def hasTrue (a : Bitmap) : Prop :=
  ∃ i j, i < a.h ∧ j < a.w ∧ a.data i j = true

/-- Whether normalization produced a glyph. -/
def normOk : NormOut → Bool
  | .ok _ => true
  | _ => false

/-- The produced glyph (all-false if normalization produced none). -/
def theGlyph : NormOut → Glyph
  | .ok g => g
  | _ => fun _ _ => false

/-- Bit-identity of a glyph and a template on the 40x40 grid. -/
def gridEq (g : Glyph) (t : Bitmap) : Bool :=
  (List.range 40).all fun i => (List.range 40).all fun j => g i j == t.data i j

/-- A glyph viewed as a 40x40 bitmap (for symmetry statements). -/
def toBitmap (g : Glyph) : Bitmap :=
  ⟨40, 40, g⟩

/-- A resampling kernel returning byte 0 everywhere: stands in for
Pillow's LANCZOS output on inputs where every output byte is at most
the binarization threshold (e.g. isolated pixels under heavy
downscaling). -/
def rZero : Resample := fun _ _ _ _ _ => 0

/-- A 1x1 mask holding a single foreground pixel. -/
def aOne : Bitmap := ⟨1, 1, fun _ _ => true⟩

/-- An all-background 40x40 template. -/
def tFalse : Bitmap := ⟨40, 40, fun _ _ => false⟩

/-- A database holding one label with one all-background template. -/
def dbA : TemplateDB := [("a", [tFalse])]

/-- A database holding one 30x30 template: its dimensions mismatch the
fixed 40x40 glyph shape. -/
def dbBad : TemplateDB := [("a", [⟨30, 30, fun _ _ => false⟩])]

/-- The synthetic mask of the claim: a 2x10 noise blob at columns 0-9
and a 10x20 valid blob at columns 20-39. -/
def mEx : Bitmap :=
  ⟨10, 40, fun i j =>
    (decide (i < 2) && decide (j < 10)) || (decide (20 ≤ j) && decide (j < 40))⟩

/-- A small all-foreground 7x4 mask (one valid component). -/
def mSmall : Bitmap := ⟨7, 4, fun _ _ => true⟩

/-- A 1x1 all-black image: its extracted mask is entirely false. -/
def imgBlack : RGBImage := ⟨1, 1, fun _ _ => (0, 0, 0)⟩

/-- An h x w image of pure red ink everywhere. -/
def redImg (h w : Nat) : RGBImage := ⟨h, w, fun _ _ => (255, 0, 0)⟩

/-- An all-foreground h x w mask. -/
def fullMask (h w : Nat) : Bitmap := ⟨h, w, fun _ _ => true⟩

/-- A glyph with a single foreground pixel at the origin. -/
def gDot : Glyph := fun i j => decide (i = 0) && decide (j = 0)

/-- The template bitmap of `gDot`. -/
def tDot : Bitmap := ⟨40, 40, gDot⟩

/-- A database holding one label with the `tDot` template. -/
def dbX : TemplateDB := [("x", [tDot])]

/-- Every set bit of a pixel set lies below the grid capacity. -/
def bitsBounded (m : Bitmap) (S : Nat) : Prop :=
  ∀ k, S.testBit k = true → k < m.h * m.w

/-- Number of set bits of a pixel set within the grid capacity. -/
def bitCount (m : Bitmap) (S : Nat) : Nat :=
  ((List.range (m.h * m.w)).filter S.testBit).length

/-! Basic facts about pixels, indices and neighborhoods. -/

theorem mem_allPix {m : Bitmap} {p : Pix} :
    p ∈ allPix m ↔ p.1 < m.h ∧ p.2 < m.w := by
  unfold allPix
  simp only [List.mem_flatMap, List.mem_map, List.mem_range]
  constructor
  · rintro ⟨i, hi, j, hj, rfl⟩
    exact ⟨hi, hj⟩
  · rintro ⟨h1, h2⟩
    exact ⟨p.1, h1, p.2, h2, rfl⟩

theorem allPix_nodup (m : Bitmap) : (allPix m).Nodup := by
  unfold allPix
  refine List.nodup_flatMap.2 ⟨?_, ?_⟩
  · intro i _
    exact (List.nodup_range m.w).map fun a b h => by
      simpa using congrArg Prod.snd h
  · refine (List.pairwise_lt_range m.h).imp ?_
    intro i i' hne
    simp only [Function.onFun, List.Disjoint, List.mem_map, List.mem_range]
    rintro x ⟨j, _, rfl⟩ ⟨j', _, hx⟩
    have := congrArg Prod.fst hx
    simp only at this
    omega

theorem maskAt_iff {m : Bitmap} {p : Pix} :
    maskAt m p = true ↔ p.1 < m.h ∧ p.2 < m.w ∧ m.data p.1 p.2 = true := by
  simp [maskAt, and_assoc]

theorem pixIdx_lt {m : Bitmap} {p : Pix} (h1 : p.1 < m.h) (h2 : p.2 < m.w) :
    pixIdx m p < m.h * m.w := by
  unfold pixIdx
  calc p.1 * m.w + p.2 < p.1 * m.w + m.w := by omega
    _ = (p.1 + 1) * m.w := by ring
    _ ≤ m.h * m.w := Nat.mul_le_mul_right _ h1

theorem pixIdx_inj {m : Bitmap} {p q : Pix} (hp : p.2 < m.w) (hq : q.2 < m.w)
    (h : pixIdx m p = pixIdx m q) : p = q := by
  unfold pixIdx at h
  have h1 : p.1 = q.1 := by
    rcases Nat.lt_trichotomy p.1 q.1 with hlt | heq | hgt
    · have hm : (p.1 + 1) * m.w ≤ q.1 * m.w := Nat.mul_le_mul_right _ hlt
      rw [Nat.add_mul, Nat.one_mul] at hm
      omega
    · exact heq
    · have hm : (q.1 + 1) * m.w ≤ p.1 * m.w := Nat.mul_le_mul_right _ hgt
      rw [Nat.add_mul, Nat.one_mul] at hm
      omega
  have h2 : p.2 = q.2 := by
    rw [h1] at h
    omega
  exact Prod.ext h1 h2

theorem pixOf_spec {m : Bitmap} {k : Nat} (hk : k < m.h * m.w) :
    (pixOf m k).1 < m.h ∧ (pixOf m k).2 < m.w ∧ pixIdx m (pixOf m k) = k := by
  have hw : 0 < m.w := by
    rcases Nat.eq_zero_or_pos m.w with h0 | h0
    · rw [h0, Nat.mul_zero] at hk
      omega
    · exact h0
  refine ⟨?_, Nat.mod_lt _ hw, ?_⟩
  · show k / m.w < m.h
    exact (Nat.div_lt_iff_lt_mul hw).2 hk
  · show k / m.w * m.w + k % m.w = k
    rw [Nat.mul_comm]
    exact Nat.div_add_mod k m.w

theorem mem_nbrs {p q : Pix} :
    q ∈ nbrs p ↔
      (q.1 = p.1 + 1 ∧ q.2 = p.2) ∨ (q.2 = p.2 + 1 ∧ q.1 = p.1)
        ∨ (q.1 + 1 = p.1 ∧ q.2 = p.2) ∨ (q.2 + 1 = p.2 ∧ q.1 = p.1) := by
  unfold nbrs
  by_cases h1 : 0 < p.1 <;> by_cases h2 : 0 < p.2 <;>
    simp [h1, h2, Prod.ext_iff] <;> omega

theorem nbrs_symm {p q : Pix} : q ∈ nbrs p ↔ p ∈ nbrs q := by
  rw [mem_nbrs, mem_nbrs]
  omega

theorem stepP_symm {m : Bitmap} : Symmetric (stepP m) := by
  rintro p q ⟨h1, h2, h3⟩
  exact ⟨h2, h1, nbrs_symm.1 h3⟩

theorem connTo_symm {m : Bitmap} {p q : Pix} (h : connTo m p q) : connTo m q p :=
  Relation.ReflTransGen.symmetric stepP_symm h

theorem connTo_trans {m : Bitmap} {p q s : Pix} (h1 : connTo m p q)
    (h2 : connTo m q s) : connTo m p s :=
  Relation.ReflTransGen.trans h1 h2

theorem connTo_maskAt {m : Bitmap} {p q : Pix} (hp : maskAt m p = true)
    (h : connTo m p q) : maskAt m q = true := by
  induction h with
  | refl => exact hp
  | tail _ hstep ih => exact hstep.2.1

/-! Bit-level facts about pixel sets. -/

theorem testBit_one {j : Nat} : (1 : Nat).testBit j = decide (j = 0) := by
  cases j with
  | zero => simp [Nat.testBit_zero]
  | succ n =>
    rw [Nat.testBit_succ]
    have h : (1 : Nat) / 2 = 0 := rfl
    rw [h, Nat.zero_testBit]
    simp

theorem testBit_single {k j : Nat} : (1 <<< k : Nat).testBit j = decide (j = k) := by
  rw [Nat.testBit_shiftLeft, testBit_one]
  by_cases h : k ≤ j
  · rw [show decide (j ≥ k) = true from decide_eq_true h]
    simp only [Bool.true_and, decide_eq_decide]
    omega
  · rw [show decide (j ≥ k) = false from decide_eq_false h]
    simp only [Bool.false_and]
    symm
    simp only [decide_eq_false_iff_not]
    omega

theorem memB_iff {S : Nat} {m : Bitmap} {p : Pix} :
    memB S m p = true ↔ p.1 < m.h ∧ p.2 < m.w ∧ S.testBit (pixIdx m p) = true := by
  simp [memB, and_assoc]

theorem exists_testBit_of_ne_zero {n : Nat} (h : n ≠ 0) : ∃ k, n.testBit k = true := by
  by_contra hall
  push_neg at hall
  exact h (Nat.eq_of_testBit_eq fun i => by
    rw [Nat.zero_testBit]
    exact Bool.eq_false_iff.2 fun hi => (hall i) hi)

theorem foldBit_testBit {m : Bitmap} (g : Pix → Bool) (l : List Pix) (T k : Nat) :
    ((l.foldl (fun T q => if g q then T ||| (1 <<< pixIdx m q) else T) T).testBit k = true)
      ↔ (T.testBit k = true ∨ ∃ q ∈ l, g q = true ∧ k = pixIdx m q) := by
  induction l generalizing T with
  | nil => simp
  | cons q l ih =>
    simp only [List.foldl_cons]
    by_cases hg : g q
    · rw [hg, if_pos rfl, ih]
      simp only [Nat.testBit_or, testBit_single, Bool.or_eq_true, decide_eq_true_eq,
        List.mem_cons]
      constructor
      · rintro ((hT | hk) | ⟨q', hq', hgq', rfl⟩)
        · exact Or.inl hT
        · exact Or.inr ⟨q, Or.inl rfl, hg, hk⟩
        · exact Or.inr ⟨q', Or.inr hq', hgq', rfl⟩
      · rintro (hT | ⟨q', hq' | hq', hgq', rfl⟩)
        · exact Or.inl (Or.inl hT)
        · subst hq'
          exact Or.inl (Or.inr rfl)
        · exact Or.inr ⟨q', hq', hgq', rfl⟩
    · rw [if_neg (by simpa using hg), ih]
      simp only [List.mem_cons]
      constructor
      · rintro (hT | ⟨q', hq', hgq', rfl⟩)
        · exact Or.inl hT
        · exact Or.inr ⟨q', Or.inr hq', hgq', rfl⟩
      · rintro (hT | ⟨q', hq' | hq', hgq', rfl⟩)
        · exact Or.inl hT
        · subst hq'
          exact absurd hgq' (by simpa using hg)
        · exact Or.inr ⟨q', hq', hgq', rfl⟩

theorem expand_testBit {m : Bitmap} {S k : Nat} :
    (expand m S).testBit k = true ↔
      S.testBit k = true ∨ ∃ q ∈ allPix m,
        (maskAt m q && !(memB S m q) && ((nbrs q).any fun p => memB S m p)) = true
          ∧ k = pixIdx m q :=
  foldBit_testBit _ _ _ _

theorem expand_mem {m : Bitmap} {S : Nat} {q : Pix} :
    memB (expand m S) m q = true ↔
      memB S m q = true
        ∨ (maskAt m q = true ∧ memB S m q = false ∧ ∃ p ∈ nbrs q, memB S m p = true) := by
  constructor
  · intro h
    rcases memB_iff.1 h with ⟨h1, h2, h3⟩
    rcases expand_testBit.1 h3 with hS | ⟨q', hq', hg, hk⟩
    · exact Or.inl (memB_iff.2 ⟨h1, h2, hS⟩)
    · rcases mem_allPix.1 hq' with ⟨h1', h2'⟩
      have hqq : q = q' := pixIdx_inj h2 h2' hk
      subst hqq
      simp only [Bool.and_eq_true, Bool.not_eq_true', List.any_eq_true] at hg
      exact Or.inr ⟨hg.1.1, hg.1.2, hg.2⟩
  · rintro (hS | ⟨hmask, hnot, p, hp, hmem⟩)
    · rcases memB_iff.1 hS with ⟨h1, h2, h3⟩
      refine memB_iff.2 ⟨h1, h2, expand_testBit.2 (Or.inl h3)⟩
    · rcases maskAt_iff.1 hmask with ⟨h1, h2, _⟩
      refine memB_iff.2 ⟨h1, h2, expand_testBit.2 (Or.inr ⟨q, mem_allPix.2 ⟨h1, h2⟩, ?_, rfl⟩)⟩
      simp only [Bool.and_eq_true, Bool.not_eq_true', List.any_eq_true]
      exact ⟨⟨hmask, hnot⟩, p, hp, hmem⟩

theorem expand_mono {m : Bitmap} {S k : Nat} (h : S.testBit k = true) :
    (expand m S).testBit k = true :=
  expand_testBit.2 (Or.inl h)

theorem expand_bounded {m : Bitmap} {S : Nat} (h : bitsBounded m S) :
    bitsBounded m (expand m S) := by
  intro k hk
  rcases expand_testBit.1 hk with hS | ⟨q, hq, _, rfl⟩
  · exact h k hS
  · rcases mem_allPix.1 hq with ⟨h1, h2⟩
    exact pixIdx_lt h1 h2

/-! Counting set bits; saturation reaches a fixed point. -/

theorem filter_length_mono {α : Type} (l : List α) (f g : α → Bool)
    (h : ∀ x ∈ l, f x = true → g x = true) :
    (l.filter f).length ≤ (l.filter g).length := by
  induction l with
  | nil => simp
  | cons x l ih =>
    have ih' := ih fun y hy => h y (List.mem_cons_of_mem _ hy)
    by_cases hf : f x = true
    · rw [List.filter_cons_of_pos hf, List.filter_cons_of_pos (h x (List.mem_cons_self x l) hf)]
      simpa using ih'
    · rw [List.filter_cons_of_neg (by simpa using hf)]
      by_cases hg : g x = true
      · rw [List.filter_cons_of_pos hg]
        simp only [List.length_cons]
        omega
      · rw [List.filter_cons_of_neg (by simpa using hg)]
        exact ih'

theorem filter_length_strict {α : Type} (l : List α) (f g : α → Bool)
    (h : ∀ x ∈ l, f x = true → g x = true) (a : α) (ha : a ∈ l)
    (hf : f a = false) (hg : g a = true) :
    (l.filter f).length < (l.filter g).length := by
  induction l with
  | nil => exact absurd ha (List.not_mem_nil a)
  | cons x l ih =>
    have hmono := filter_length_mono l f g fun y hy => h y (List.mem_cons_of_mem _ hy)
    rcases List.mem_cons.1 ha with rfl | ha'
    · rw [List.filter_cons_of_neg (by simp [hf]), List.filter_cons_of_pos hg]
      simp only [List.length_cons]
      omega
    · have ih' := ih (fun y hy => h y (List.mem_cons_of_mem _ hy)) ha'
      by_cases hfx : f x = true
      · rw [List.filter_cons_of_pos hfx, List.filter_cons_of_pos (h x (List.mem_cons_self x l) hfx)]
        simpa using ih'
      · rw [List.filter_cons_of_neg (by simpa using hfx)]
        by_cases hgx : g x = true
        · rw [List.filter_cons_of_pos hgx]
          simp only [List.length_cons]
          omega
        · rw [List.filter_cons_of_neg (by simpa using hgx)]
          exact ih'

theorem filter_all_of_length {α : Type} (l : List α) (f : α → Bool)
    (h : (l.filter f).length = l.length) : ∀ x ∈ l, f x = true := by
  intro x hx
  by_contra hfx
  have : (l.filter f).length < (l.filter fun _ => true).length :=
    filter_length_strict l f (fun _ => true) (fun _ _ _ => rfl) x hx
      (by simpa using hfx) rfl
  rw [List.filter_true] at this
  omega

theorem bitCount_le (m : Bitmap) (S : Nat) : bitCount m S ≤ m.h * m.w := by
  unfold bitCount
  calc ((List.range (m.h * m.w)).filter S.testBit).length
      ≤ (List.range (m.h * m.w)).length := List.length_filter_le _ _
    _ = m.h * m.w := List.length_range _

theorem bitCount_strict {m : Bitmap} {S T : Nat} (hsub : ∀ k, S.testBit k = true → T.testBit k = true)
    {k0 : Nat} (hk0 : k0 < m.h * m.w) (hS : S.testBit k0 = false) (hT : T.testBit k0 = true) :
    bitCount m S < bitCount m T :=
  filter_length_strict _ _ _ (fun x _ => hsub x) k0 (List.mem_range.2 hk0) hS hT

theorem expand_eq_self_of_full {m : Bitmap} {S : Nat}
    (hfull : ∀ k < m.h * m.w, S.testBit k = true) : expand m S = S := by
  apply Nat.eq_of_testBit_eq
  intro k
  by_cases hS : S.testBit k = true
  · rw [hS, expand_mono hS]
  · cases hex : (expand m S).testBit k
    · rw [Bool.eq_false_iff.2 hS]
    · rcases expand_testBit.1 hex with h1 | ⟨q, hq, hg, rfl⟩
      · exact absurd h1 hS
      · rcases mem_allPix.1 hq with ⟨hb1, hb2⟩
        have hbit := hfull _ (pixIdx_lt hb1 hb2)
        have hmem : memB S m q = true := memB_iff.2 ⟨hb1, hb2, hbit⟩
        simp only [Bool.and_eq_true, Bool.not_eq_true'] at hg
        rw [hg.1.2] at hmem
        exact absurd hmem (by simp)

theorem sat_mono {m : Bitmap} : ∀ (n S k : Nat), S.testBit k = true →
    (sat m n S).testBit k = true := by
  intro n
  induction n with
  | zero => intro S k h; exact h
  | succ n ih =>
    intro S k h
    unfold sat
    by_cases hfix : expand m S = S
    · rw [if_pos hfix]; exact h
    · rw [if_neg hfix]
      exact ih _ _ (expand_mono h)

theorem sat_bounded {m : Bitmap} : ∀ (n S : Nat), bitsBounded m S →
    bitsBounded m (sat m n S) := by
  intro n
  induction n with
  | zero => intro S h; exact h
  | succ n ih =>
    intro S h
    unfold sat
    by_cases hfix : expand m S = S
    · rw [if_pos hfix]; exact h
    · rw [if_neg hfix]
      exact ih _ (expand_bounded h)

theorem sat_fix {m : Bitmap} : ∀ (n S : Nat), bitsBounded m S →
    m.h * m.w ≤ n + bitCount m S → expand m (sat m n S) = sat m n S := by
  intro n
  induction n with
  | zero =>
    intro S hb hn
    have hcount : bitCount m S = m.h * m.w := le_antisymm (bitCount_le m S) (by omega)
    unfold bitCount at hcount
    have hlen : ((List.range (m.h * m.w)).filter S.testBit).length
        = (List.range (m.h * m.w)).length := by
      rw [List.length_range]
      exact hcount
    exact expand_eq_self_of_full fun k hk =>
      filter_all_of_length _ _ hlen k (List.mem_range.2 hk)
  | succ n ih =>
    intro S hb hn
    unfold sat
    by_cases hfix : expand m S = S
    · rw [if_pos hfix]
      exact hfix
    · rw [if_neg hfix]
      apply ih _ (expand_bounded hb)
      have hdiff : ∃ k, (expand m S).testBit k ≠ S.testBit k := by
        by_contra hall
        push_neg at hall
        exact hfix (Nat.eq_of_testBit_eq hall)
      rcases hdiff with ⟨k0, hk0⟩
      have hSk : S.testBit k0 = false := by
        cases hc : S.testBit k0
        · rfl
        · exact absurd (expand_mono hc) fun he => hk0 (by rw [he, hc])
      have hEk : (expand m S).testBit k0 = true := by
        cases hc : (expand m S).testBit k0
        · exact absurd (by rw [hc, hSk]) hk0
        · rfl
      have hlt : k0 < m.h * m.w := expand_bounded hb _ hEk
      have := bitCount_strict (fun k h => expand_mono h) hlt hSk hEk
      omega

/-! Soundness and completeness of the component computation. -/

theorem sat_sound {m : Bitmap} {p : Pix} : ∀ (n S : Nat),
    (∀ q, memB S m q = true → maskAt m q = true ∧ connTo m p q) →
    ∀ q, memB (sat m n S) m q = true → maskAt m q = true ∧ connTo m p q := by
  intro n
  induction n with
  | zero => intro S h q hq; exact h q hq
  | succ n ih =>
    intro S h q hq
    unfold sat at hq
    by_cases hfix : expand m S = S
    · rw [if_pos hfix] at hq
      exact h q hq
    · rw [if_neg hfix] at hq
      refine ih _ ?_ q hq
      intro q' hq'
      rcases expand_mem.1 hq' with hold | ⟨hmask, _, p', hp', hmem⟩
      · exact h q' hold
      · rcases h p' hmem with ⟨hmaskp', hconn⟩
        exact ⟨hmask, hconn.tail ⟨hmaskp', hmask, nbrs_symm.1 hp'⟩⟩

theorem compBits_sound {m : Bitmap} {p : Pix} (hp : maskAt m p = true) {q : Pix}
    (h : memB (compBits m p) m q = true) : maskAt m q = true ∧ connTo m p q := by
  refine sat_sound _ _ ?_ q h
  intro q' hq'
  rcases memB_iff.1 hq' with ⟨h1, h2, h3⟩
  rw [testBit_single] at h3
  have hpw : p.2 < m.w := (maskAt_iff.1 hp).2.1
  have : q' = p := pixIdx_inj h2 hpw (by simpa using h3)
  subst this
  exact ⟨hp, Relation.ReflTransGen.refl⟩

theorem compBits_fix {m : Bitmap} {p : Pix} (hp : maskAt m p = true) :
    expand m (compBits m p) = compBits m p := by
  apply sat_fix
  · intro k hk
    rw [testBit_single] at hk
    have hk' : k = pixIdx m p := by simpa using hk
    subst hk'
    rcases maskAt_iff.1 hp with ⟨h1, h2, _⟩
    exact pixIdx_lt h1 h2
  · omega

theorem fix_closed {m : Bitmap} {S : Nat} (hfix : expand m S = S) {q : Pix}
    (hq : maskAt m q = true) (hnb : ∃ p ∈ nbrs q, memB S m p = true) :
    memB S m q = true := by
  by_cases h : memB S m q = true
  · exact h
  · have : memB (expand m S) m q = true :=
      expand_mem.2 (Or.inr ⟨hq, Bool.eq_false_iff.2 h, hnb⟩)
    rw [hfix] at this
    exact this

theorem compBits_complete {m : Bitmap} {p : Pix} (hp : maskAt m p = true) {q : Pix}
    (hc : connTo m p q) : memB (compBits m p) m q = true := by
  induction hc with
  | refl =>
    rcases maskAt_iff.1 hp with ⟨h1, h2, _⟩
    refine memB_iff.2 ⟨h1, h2, sat_mono _ _ _ ?_⟩
    rw [testBit_single]
    simp
  | tail _ hstep ih =>
    rename_i b c _
    exact fix_closed (compBits_fix hp) hstep.2.1 ⟨b, nbrs_symm.1 hstep.2.2, ih⟩

theorem compBits_mem {m : Bitmap} {p : Pix} (hp : maskAt m p = true) {q : Pix} :
    memB (compBits m p) m q = true ↔ maskAt m q = true ∧ connTo m p q :=
  ⟨compBits_sound hp, fun ⟨_, hc⟩ => compBits_complete hp hc⟩

theorem comp_mem {m : Bitmap} {p : Pix} (hp : maskAt m p = true) {q : Pix} :
    q ∈ comp m p ↔ maskAt m q = true ∧ connTo m p q := by
  unfold comp compOfBits
  rw [List.mem_filter]
  constructor
  · rintro ⟨_, h2⟩
    exact (compBits_mem hp).1 h2
  · rintro ⟨hq, hc⟩
    rcases maskAt_iff.1 hq with ⟨h1, h2, _⟩
    exact ⟨mem_allPix.2 ⟨h1, h2⟩, (compBits_mem hp).2 ⟨hq, hc⟩⟩

theorem comp_self_mem {m : Bitmap} {p : Pix} (hp : maskAt m p = true) :
    p ∈ comp m p :=
  (comp_mem hp).2 ⟨hp, Relation.ReflTransGen.refl⟩

/-! The component enumeration: every emitted component is the full
connected component of a foreground seed, every foreground pixel is
covered, and distinct components are mutually disconnected. -/

theorem lowBitF_spec : ∀ (f n : Nat), n ≠ 0 → (∀ k, n.testBit k = true → k < f) →
    n.testBit (lowBitF f n) = true ∧ ∀ j < lowBitF f n, n.testBit j = false := by
  intro f
  induction f with
  | zero =>
    intro n hn hb
    rcases exists_testBit_of_ne_zero hn with ⟨k, hk⟩
    exact absurd (hb k hk) (by omega)
  | succ f ih =>
    intro n hn hb
    unfold lowBitF
    by_cases h2 : n % 2 = 1
    · rw [if_pos h2]
      refine ⟨?_, by omega⟩
      rw [Nat.testBit_zero]
      simpa using h2
    · rw [if_neg h2]
      have hhalf : n / 2 ≠ 0 := by
        intro h0
        omega
      have hbits : ∀ k, (n / 2).testBit k = true → k < f := by
        intro k hk
        rw [Nat.testBit_div_two] at hk
        have := hb _ hk
        omega
      rcases ih (n / 2) hhalf hbits with ⟨h1, hlow⟩
      refine ⟨?_, ?_⟩
      · rw [Nat.testBit_succ]
        exact h1
      · intro j hj
        cases j with
        | zero =>
          rw [Nat.testBit_zero]
          simpa using h2
        | succ j' =>
          rw [Nat.testBit_succ]
          exact hlow j' (by omega)

theorem trueBits_testBit {m : Bitmap} {k : Nat} :
    (trueBits m).testBit k = true ↔ ∃ q ∈ allPix m, maskAt m q = true ∧ k = pixIdx m q := by
  unfold trueBits
  rw [foldBit_testBit]
  simp [Nat.zero_testBit]

theorem memB_trueBits {m : Bitmap} {q : Pix} : memB (trueBits m) m q = maskAt m q := by
  by_cases hq : maskAt m q = true
  · rw [hq]
    rcases maskAt_iff.1 hq with ⟨h1, h2, _⟩
    exact memB_iff.2 ⟨h1, h2, trueBits_testBit.2 ⟨q, mem_allPix.2 ⟨h1, h2⟩, hq, rfl⟩⟩
  · rw [Bool.eq_false_iff.2 hq]
    cases hc : memB (trueBits m) m q
    · rfl
    · rcases memB_iff.1 hc with ⟨h1, h2, h3⟩
      rcases trueBits_testBit.1 h3 with ⟨q', hq', hmask', hk⟩
      rcases mem_allPix.1 hq' with ⟨_, h2'⟩
      have : q = q' := pixIdx_inj h2 h2' hk
      subst this
      exact absurd hmask' hq

theorem trueBits_bounded (m : Bitmap) : bitsBounded m (trueBits m) := by
  intro k hk
  rcases trueBits_testBit.1 hk with ⟨q, hq, _, rfl⟩
  rcases mem_allPix.1 hq with ⟨h1, h2⟩
  exact pixIdx_lt h1 h2

theorem restClear_testBit {rest cb k : Nat} :
    (rest &&& (rest ^^^ cb)).testBit k = (rest.testBit k && !(cb.testBit k)) := by
  rw [Nat.testBit_and, Nat.testBit_xor]
  cases rest.testBit k <;> cases cb.testBit k <;> rfl

theorem compsAux_spec {m : Bitmap} : ∀ (fuel rest : Nat),
    (∀ k, rest.testBit k = true → (trueBits m).testBit k = true) →
    bitCount m rest ≤ fuel →
    (∀ c ∈ compsAux m fuel rest, ∃ p, maskAt m p = true ∧ memB rest m p = true ∧ c = comp m p)
      ∧ (∀ q, memB rest m q = true → ∃ c ∈ compsAux m fuel rest, q ∈ c)
      ∧ List.Pairwise (fun c1 c2 => ∀ p ∈ c1, ∀ q ∈ c2, ¬ connTo m p q)
          (compsAux m fuel rest) := by
  intro fuel
  induction fuel with
  | zero =>
    intro rest hsub hfuel
    have hz : compsAux m 0 rest = [] := rfl
    rw [hz]
    refine ⟨by simp, ?_, List.Pairwise.nil⟩
    intro q hq
    rcases memB_iff.1 hq with ⟨h1, h2, h3⟩
    have hk : pixIdx m q < m.h * m.w := pixIdx_lt h1 h2
    have hmem : pixIdx m q ∈ (List.range (m.h * m.w)).filter rest.testBit :=
      List.mem_filter.2 ⟨List.mem_range.2 hk, h3⟩
    have : 0 < bitCount m rest := by
      unfold bitCount
      exact List.length_pos.2 fun he => by
        rw [he] at hmem
        exact List.not_mem_nil _ hmem
    omega
  | succ fuel ih =>
    intro rest hsub hfuel
    by_cases hrest0 : rest = 0
    · subst hrest0
      have hz : compsAux m (fuel + 1) 0 = [] := by
        unfold compsAux
        rw [if_pos rfl]
      rw [hz]
      refine ⟨by simp, ?_, List.Pairwise.nil⟩
      intro q hq
      rcases memB_iff.1 hq with ⟨_, _, h3⟩
      rw [Nat.zero_testBit] at h3
      exact absurd h3 (by simp)
    · have hbound : bitsBounded m rest := fun k hk => trueBits_bounded m k (hsub k hk)
      have hmaskOf : ∀ q, memB rest m q = true → maskAt m q = true := by
        intro q hq
        rcases memB_iff.1 hq with ⟨h1, h2, h3⟩
        have := memB_iff.2 ⟨h1, h2, hsub _ h3⟩
        rw [memB_trueBits] at this
        exact this
      rcases lowBitF_spec (m.h * m.w) rest hrest0 (fun k hk => hbound k hk) with ⟨hk0bit, _⟩
      have hk0lt : lowBitF (m.h * m.w) rest < m.h * m.w := hbound _ hk0bit
      rcases pixOf_spec hk0lt with ⟨hp1, hp2, hpidx⟩
      have hmemp0 : memB rest m (pixOf m (lowBitF (m.h * m.w) rest)) = true :=
        memB_iff.2 ⟨hp1, hp2, by rw [hpidx]; exact hk0bit⟩
      have hmask0 : maskAt m (pixOf m (lowBitF (m.h * m.w) rest)) = true := hmaskOf _ hmemp0
      have hstep : compsAux m (fuel + 1) rest
          = compOfBits m (compBits m (pixOf m (lowBitF (m.h * m.w) rest)))
            :: compsAux m fuel
              (rest &&& (rest ^^^ compBits m (pixOf m (lowBitF (m.h * m.w) rest)))) := by
        conv_lhs => rw [compsAux]
        rw [if_neg hrest0]
      have hcbbit : (compBits m (pixOf m (lowBitF (m.h * m.w) rest))).testBit
          (lowBitF (m.h * m.w) rest) = true := by
        have := compBits_complete hmask0 (q := pixOf m (lowBitF (m.h * m.w) rest))
          Relation.ReflTransGen.refl
        rcases memB_iff.1 this with ⟨_, _, h3⟩
        rw [hpidx] at h3
        exact h3
      have hsub' : ∀ k,
          (rest &&& (rest ^^^ compBits m (pixOf m (lowBitF (m.h * m.w) rest)))).testBit k = true
            → (trueBits m).testBit k = true := by
        intro k hk
        rw [restClear_testBit, Bool.and_eq_true] at hk
        exact hsub k hk.1
      have hfuel' : bitCount m
          (rest &&& (rest ^^^ compBits m (pixOf m (lowBitF (m.h * m.w) rest)))) ≤ fuel := by
        have hstrict : bitCount m
            (rest &&& (rest ^^^ compBits m (pixOf m (lowBitF (m.h * m.w) rest))))
              < bitCount m rest := by
          refine bitCount_strict ?_ hk0lt ?_ hk0bit
          · intro k hk
            rw [restClear_testBit, Bool.and_eq_true] at hk
            exact hk.1
          · rw [restClear_testBit, hcbbit]
            simp
        omega
      rcases ih _ hsub' hfuel' with ⟨ih1, ih2, ih3⟩
      have hrest'sub : ∀ q, memB
          (rest &&& (rest ^^^ compBits m (pixOf m (lowBitF (m.h * m.w) rest)))) m q = true
            → memB rest m q = true := by
        intro q hq
        rcases memB_iff.1 hq with ⟨h1, h2, h3⟩
        rw [restClear_testBit, Bool.and_eq_true] at h3
        exact memB_iff.2 ⟨h1, h2, h3.1⟩
      have hrest'notcb : ∀ q, memB
          (rest &&& (rest ^^^ compBits m (pixOf m (lowBitF (m.h * m.w) rest)))) m q = true
            → (compBits m (pixOf m (lowBitF (m.h * m.w) rest))).testBit (pixIdx m q) = false := by
        intro q hq
        rcases memB_iff.1 hq with ⟨_, _, h3⟩
        rw [restClear_testBit, Bool.and_eq_true] at h3
        simpa using h3.2
      rw [hstep]
      refine ⟨?_, ?_, ?_⟩
      · intro c hc
        rcases List.mem_cons.1 hc with rfl | hc'
        · exact ⟨pixOf m (lowBitF (m.h * m.w) rest), hmask0, hmemp0, rfl⟩
        · rcases ih1 c hc' with ⟨p2, hmask2, hmem2, hc2⟩
          exact ⟨p2, hmask2, hrest'sub _ hmem2, hc2⟩
      · intro q hq
        rcases memB_iff.1 hq with ⟨h1, h2, h3⟩
        cases hcb : (compBits m (pixOf m (lowBitF (m.h * m.w) rest))).testBit (pixIdx m q) with
        | true =>
          refine ⟨_, List.mem_cons_self _ _, ?_⟩
          unfold compOfBits
          exact List.mem_filter.2 ⟨mem_allPix.2 ⟨h1, h2⟩, memB_iff.2 ⟨h1, h2, hcb⟩⟩
        | false =>
          have hq' : memB
              (rest &&& (rest ^^^ compBits m (pixOf m (lowBitF (m.h * m.w) rest)))) m q = true :=
            memB_iff.2 ⟨h1, h2, by rw [restClear_testBit, h3, hcb]; rfl⟩
          rcases ih2 q hq' with ⟨c, hc, hqc⟩
          exact ⟨c, List.mem_cons_of_mem _ hc, hqc⟩
      · refine List.Pairwise.cons ?_ ih3
        intro c2 hc2 p hp q hq hconn
        rcases ih1 c2 hc2 with ⟨p2, hmask2, hmem2, rfl⟩
        have hp' : p ∈ comp m (pixOf m (lowBitF (m.h * m.w) rest)) := hp
        rcases (comp_mem hmask0).1 hp' with ⟨_, hconn0p⟩
        rcases (comp_mem hmask2).1 hq with ⟨_, hconn2q⟩
        have hconn0p2 : connTo m (pixOf m (lowBitF (m.h * m.w) rest)) p2 :=
          connTo_trans (connTo_trans hconn0p hconn) (connTo_symm hconn2q)
        have hmemcb : memB (compBits m (pixOf m (lowBitF (m.h * m.w) rest))) m p2 = true :=
          compBits_complete hmask0 hconn0p2
        rcases memB_iff.1 hmemcb with ⟨_, _, h3⟩
        rw [hrest'notcb p2 hmem2] at h3
        exact absurd h3 (by simp)

theorem componentsOf_shape {m : Bitmap} :
    ∀ c ∈ componentsOf m, ∃ p, maskAt m p = true ∧ c = comp m p := by
  intro c hc
  rcases (compsAux_spec (m.h * m.w) (trueBits m) (fun _ hk => hk)
    (bitCount_le m _)).1 c hc with ⟨p, hp, _, hcp⟩
  exact ⟨p, hp, hcp⟩

theorem componentsOf_cover {m : Bitmap} {q : Pix} (hq : maskAt m q = true) :
    ∃ c ∈ componentsOf m, q ∈ c := by
  refine (compsAux_spec (m.h * m.w) (trueBits m) (fun _ hk => hk)
    (bitCount_le m _)).2.1 q ?_
  rw [memB_trueBits]
  exact hq

theorem componentsOf_pairwise {m : Bitmap} :
    List.Pairwise (fun c1 c2 => ∀ p ∈ c1, ∀ q ∈ c2, ¬ connTo m p q) (componentsOf m) :=
  (compsAux_spec (m.h * m.w) (trueBits m) (fun _ hk => hk) (bitCount_le m _)).2.2

/-! Bounding boxes, the stable sort, and the extracted glyph candidates. -/

theorem foldl_min_le {l : List Nat} {acc : Nat} :
    l.foldl min acc ≤ acc ∧ ∀ a ∈ l, l.foldl min acc ≤ a := by
  induction l generalizing acc with
  | nil => simp
  | cons x xs ih =>
    rcases @ih (min acc x) with ⟨h1, h2⟩
    refine ⟨le_trans h1 (min_le_left _ _), ?_⟩
    intro a ha
    rcases List.mem_cons.1 ha with rfl | ha'
    · exact le_trans h1 (min_le_right _ _)
    · exact h2 a ha'

theorem minD_le {l : List Nat} {a : Nat} (ha : a ∈ l) : minD l ≤ a := by
  cases l with
  | nil => exact absurd ha (List.not_mem_nil a)
  | cons x xs =>
    show minD (x :: xs) ≤ a
    rcases List.mem_cons.1 ha with rfl | ha'
    · exact foldl_min_le.1
    · exact foldl_min_le.2 a ha'

theorem foldl_le_max {l : List Nat} {acc : Nat} :
    acc ≤ l.foldl max acc ∧ ∀ a ∈ l, a ≤ l.foldl max acc := by
  induction l generalizing acc with
  | nil => simp
  | cons x xs ih =>
    rcases @ih (max acc x) with ⟨h1, h2⟩
    refine ⟨le_trans (le_max_left _ _) h1, ?_⟩
    intro a ha
    rcases List.mem_cons.1 ha with rfl | ha'
    · exact le_trans (le_max_right _ _) h1
    · exact h2 a ha'

theorem le_maxD {l : List Nat} {a : Nat} (ha : a ∈ l) : a ≤ maxD l := by
  cases l with
  | nil => exact absurd ha (List.not_mem_nil a)
  | cons x xs =>
    show a ≤ maxD (x :: xs)
    rcases List.mem_cons.1 ha with rfl | ha'
    · exact foldl_le_max.1
    · exact foldl_le_max.2 a ha'

theorem charBitmap_pix {c : List Pix} {a : Pix} (ha : a ∈ c) :
    a.1 - minD (c.map Prod.fst) < (charBitmap c).h
      ∧ a.2 - minD (c.map Prod.snd) < (charBitmap c).w
      ∧ (charBitmap c).data (a.1 - minD (c.map Prod.fst)) (a.2 - minD (c.map Prod.snd))
          = true := by
  have hr1 : minD (c.map Prod.fst) ≤ a.1 := minD_le (List.mem_map_of_mem Prod.fst ha)
  have hr2 : a.1 ≤ maxD (c.map Prod.fst) := le_maxD (List.mem_map_of_mem Prod.fst ha)
  have hc1 : minD (c.map Prod.snd) ≤ a.2 := minD_le (List.mem_map_of_mem Prod.snd ha)
  have hc2 : a.2 ≤ maxD (c.map Prod.snd) := le_maxD (List.mem_map_of_mem Prod.snd ha)
  refine ⟨by show _ < maxD (c.map Prod.fst) + 1 - minD (c.map Prod.fst); omega,
    by show _ < maxD (c.map Prod.snd) + 1 - minD (c.map Prod.snd); omega, ?_⟩
  show c.contains (minD (c.map Prod.fst) + (a.1 - minD (c.map Prod.fst)),
    minD (c.map Prod.snd) + (a.2 - minD (c.map Prod.snd))) = true
  have h1 : minD (c.map Prod.fst) + (a.1 - minD (c.map Prod.fst)) = a.1 := by omega
  have h2 : minD (c.map Prod.snd) + (a.2 - minD (c.map Prod.snd)) = a.2 := by omega
  rw [h1, h2]
  exact List.elem_eq_true_of_mem ha

theorem insertLe_mem {x y : Nat × Bitmap} : ∀ {l : List (Nat × Bitmap)},
    y ∈ insertLe x l ↔ y = x ∨ y ∈ l := by
  intro l
  induction l with
  | nil => simp [insertLe]
  | cons z zs ih =>
    unfold insertLe
    by_cases h : z.1 ≤ x.1
    · rw [if_pos h]
      simp only [List.mem_cons, ih]
      tauto
    · rw [if_neg h]
      simp only [List.mem_cons]

theorem insertLe_length {x : Nat × Bitmap} : ∀ {l : List (Nat × Bitmap)},
    (insertLe x l).length = l.length + 1 := by
  intro l
  induction l with
  | nil => rfl
  | cons z zs ih =>
    unfold insertLe
    by_cases h : z.1 ≤ x.1
    · rw [if_pos h]
      simp only [List.length_cons, ih]
    · rw [if_neg h]
      simp only [List.length_cons]

theorem insertLe_sorted {x : Nat × Bitmap} : ∀ {l : List (Nat × Bitmap)},
    List.Pairwise (fun a b => a.1 ≤ b.1) l
      → List.Pairwise (fun a b : Nat × Bitmap => a.1 ≤ b.1) (insertLe x l) := by
  intro l
  induction l with
  | nil => intro _; simp [insertLe]
  | cons z zs ih =>
    intro hp
    rcases List.pairwise_cons.1 hp with ⟨hz, hzs⟩
    unfold insertLe
    by_cases h : z.1 ≤ x.1
    · rw [if_pos h]
      refine List.pairwise_cons.2 ⟨?_, ih hzs⟩
      intro y hy
      rcases insertLe_mem.1 hy with rfl | hy'
      · exact h
      · exact hz y hy'
    · rw [if_neg h]
      refine List.pairwise_cons.2 ⟨?_, hp⟩
      intro y hy
      rcases List.mem_cons.1 hy with rfl | hy'
      · omega
      · exact le_trans (by omega) (hz y hy')

theorem pySortAux_sorted {l : List (Nat × Bitmap)} : ∀ {acc : List (Nat × Bitmap)},
    List.Pairwise (fun a b => a.1 ≤ b.1) acc
      → List.Pairwise (fun a b : Nat × Bitmap => a.1 ≤ b.1)
          (l.foldl (fun acc x => insertLe x acc) acc) := by
  induction l with
  | nil => intro acc h; exact h
  | cons x xs ih => intro acc h; exact ih (insertLe_sorted h)

theorem pySort_sorted {l : List (Nat × Bitmap)} :
    List.Pairwise (fun a b : Nat × Bitmap => a.1 ≤ b.1) (pySort l) :=
  pySortAux_sorted List.Pairwise.nil

theorem pySortAux_mem {y : Nat × Bitmap} : ∀ {l acc : List (Nat × Bitmap)},
    (y ∈ l.foldl (fun acc x => insertLe x acc) acc ↔ y ∈ acc ∨ y ∈ l) := by
  intro l
  induction l with
  | nil => simp
  | cons x xs ih =>
    intro acc
    simp only [List.foldl_cons, ih, insertLe_mem, List.mem_cons]
    tauto

theorem pySort_mem {y : Nat × Bitmap} {l : List (Nat × Bitmap)} :
    y ∈ pySort l ↔ y ∈ l := by
  unfold pySort
  rw [pySortAux_mem]
  simp

theorem pySortAux_length : ∀ {l acc : List (Nat × Bitmap)},
    (l.foldl (fun acc x => insertLe x acc) acc).length = acc.length + l.length := by
  intro l
  induction l with
  | nil => simp
  | cons x xs ih =>
    intro acc
    simp only [List.foldl_cons, ih, insertLe_length, List.length_cons]
    omega

theorem pySort_length {l : List (Nat × Bitmap)} : (pySort l).length = l.length := by
  unfold pySort
  rw [pySortAux_length]
  simp

theorem mem_validChars {m : Bitmap} {kb : Nat × Bitmap} :
    kb ∈ validChars m ↔ ∃ c ∈ componentsOf m,
      5 < (charBitmap c).h ∧ 2 < (charBitmap c).w
        ∧ kb = (minD (c.map Prod.snd), charBitmap c) := by
  unfold validChars
  rw [pySort_mem, List.mem_filterMap]
  constructor
  · rintro ⟨c, hc, hf⟩
    by_cases hcond : (5 < (charBitmap c).h && 2 < (charBitmap c).w) = true
    · rw [if_pos hcond] at hf
      rw [Bool.and_eq_true, decide_eq_true_eq, decide_eq_true_eq] at hcond
      exact ⟨c, hc, hcond.1, hcond.2, (Option.some_inj.1 hf).symm⟩
    · rw [if_neg hcond] at hf
      exact absurd hf (by simp)
  · rintro ⟨c, hc, h1, h2, rfl⟩
    refine ⟨c, hc, ?_⟩
    rw [if_pos (by rw [Bool.and_eq_true, decide_eq_true_eq, decide_eq_true_eq]; exact ⟨h1, h2⟩)]

theorem mem_extract_characters {m : Bitmap} {b : Bitmap} :
    b ∈ extract_characters m ↔ ∃ c ∈ componentsOf m,
      5 < (charBitmap c).h ∧ 2 < (charBitmap c).w ∧ b = charBitmap c := by
  unfold extract_characters
  rw [List.mem_map]
  constructor
  · rintro ⟨kb, hkb, rfl⟩
    rcases mem_validChars.1 hkb with ⟨c, hc, h1, h2, rfl⟩
    exact ⟨c, hc, h1, h2, rfl⟩
  · rintro ⟨c, hc, h1, h2, rfl⟩
    exact ⟨(minD (c.map Prod.snd), charBitmap c),
      mem_validChars.2 ⟨c, hc, h1, h2, rfl⟩, rfl⟩

/-! The normalizer: bounding box, scale arithmetic, and determinism. -/

theorem headD_mem {l : List Nat} (h : l ≠ []) : l.headD 0 ∈ l := by
  cases l with
  | nil => exact absurd rfl h
  | cons x xs => exact List.mem_cons_self _ _

theorem getLastD_mem : ∀ {l : List Nat}, l ≠ [] → ∀ d, l.getLastD d ∈ l := by
  intro l
  induction l with
  | nil => intro h; exact absurd rfl h
  | cons x xs ih =>
    intro _ d
    rw [List.getLastD_cons]
    cases hxs : xs with
    | nil => exact List.mem_cons_self _ _
    | cons y ys =>
      exact List.mem_cons_of_mem _ (by rw [← hxs]; exact ih (by rw [hxs]; simp) x)

theorem getLastD_default_irrel : ∀ {l : List Nat}, l ≠ [] → ∀ d1 d2,
    l.getLastD d1 = l.getLastD d2 := by
  intro l
  induction l with
  | nil => intro h; exact absurd rfl h
  | cons x xs ih =>
    intro _ d1 d2
    rw [List.getLastD_cons, List.getLastD_cons]

theorem headD_le_of_sorted {l : List Nat} (hs : List.Pairwise (· < ·) l) {a : Nat}
    (ha : a ∈ l) : l.headD 0 ≤ a := by
  cases l with
  | nil => exact absurd ha (List.not_mem_nil a)
  | cons x xs =>
    rcases List.mem_cons.1 ha with rfl | h'
    · simp
    · have := (List.pairwise_cons.1 hs).1 a h'
      simp only [List.headD_cons]
      omega

theorem le_getLastD_of_sorted : ∀ {l : List Nat}, List.Pairwise (· < ·) l → ∀ {a : Nat},
    a ∈ l → a ≤ l.getLastD 0 := by
  intro l
  induction l with
  | nil => intro _ a ha; exact absurd ha (List.not_mem_nil a)
  | cons x xs ih =>
    intro hs a ha
    rcases List.pairwise_cons.1 hs with ⟨hx, hxs⟩
    rw [List.getLastD_cons]
    rcases List.mem_cons.1 ha with rfl | h'
    · cases hxs0 : xs with
      | nil => simp
      | cons y ys =>
        rw [hxs0] at hx
        have hmem : (y :: ys).getLastD a ∈ (y :: ys) := getLastD_mem (by simp) a
        have := hx _ hmem
        omega
    · have hxs_ne : xs ≠ [] := by
        intro h0
        rw [h0] at h'
        exact List.not_mem_nil a h'
      rw [getLastD_default_irrel hxs_ne x 0]
      exact ih hxs h'

theorem firstTrue_spec {n : Nat} {f : Nat → Bool} (hex : ∃ i, i < n ∧ f i = true) :
    firstTrue n f < n ∧ f (firstTrue n f) = true
      ∧ ∀ i, i < n → f i = true → firstTrue n f ≤ i := by
  have hne : (List.range n).filter f ≠ [] := by
    rcases hex with ⟨i, h1, h2⟩
    intro h0
    have hm : i ∈ (List.range n).filter f := List.mem_filter.2 ⟨List.mem_range.2 h1, h2⟩
    rw [h0] at hm
    exact List.not_mem_nil _ hm
  have hhead : firstTrue n f ∈ (List.range n).filter f := headD_mem hne
  rcases List.mem_filter.1 hhead with ⟨hr, hf⟩
  refine ⟨List.mem_range.1 hr, hf, ?_⟩
  intro i h1 h2
  exact headD_le_of_sorted ((List.pairwise_lt_range n).filter f)
    (List.mem_filter.2 ⟨List.mem_range.2 h1, h2⟩)

theorem lastTrue_spec {n : Nat} {f : Nat → Bool} (hex : ∃ i, i < n ∧ f i = true) :
    lastTrue n f < n ∧ f (lastTrue n f) = true
      ∧ ∀ i, i < n → f i = true → i ≤ lastTrue n f := by
  have hne : (List.range n).filter f ≠ [] := by
    rcases hex with ⟨i, h1, h2⟩
    intro h0
    have hm : i ∈ (List.range n).filter f := List.mem_filter.2 ⟨List.mem_range.2 h1, h2⟩
    rw [h0] at hm
    exact List.not_mem_nil _ hm
  have hlast : lastTrue n f ∈ (List.range n).filter f := getLastD_mem hne 0
  rcases List.mem_filter.1 hlast with ⟨hr, hf⟩
  refine ⟨List.mem_range.1 hr, hf, ?_⟩
  intro i h1 h2
  exact le_getLastD_of_sorted ((List.pairwise_lt_range n).filter f)
    (List.mem_filter.2 ⟨List.mem_range.2 h1, h2⟩)

theorem rowsAny_iff {a : Bitmap} {i : Nat} :
    rowsAny a i = true ↔ ∃ j, j < a.w ∧ a.data i j = true := by
  unfold rowsAny
  rw [List.any_eq_true]
  simp

theorem colsAny_iff {a : Bitmap} {j : Nat} :
    colsAny a j = true ↔ ∃ i, i < a.h ∧ a.data i j = true := by
  unfold colsAny
  rw [List.any_eq_true]
  simp

theorem any_rows_iff {a : Bitmap} :
    ((List.range a.h).any (rowsAny a)) = true ↔ hasTrue a := by
  rw [List.any_eq_true]
  unfold hasTrue
  constructor
  · rintro ⟨i, hi, hrow⟩
    rcases rowsAny_iff.1 hrow with ⟨j, hj, hd⟩
    exact ⟨i, j, List.mem_range.1 hi, hj, hd⟩
  · rintro ⟨i, j, hi, hj, hd⟩
    exact ⟨i, List.mem_range.2 hi, rowsAny_iff.2 ⟨j, hj, hd⟩⟩

theorem any_cols_iff {a : Bitmap} :
    ((List.range a.w).any (colsAny a)) = true ↔ hasTrue a := by
  rw [List.any_eq_true]
  unfold hasTrue
  constructor
  · rintro ⟨j, hj, hcol⟩
    rcases colsAny_iff.1 hcol with ⟨i, hi, hd⟩
    exact ⟨i, j, hi, List.mem_range.1 hj, hd⟩
  · rintro ⟨i, j, hi, hj, hd⟩
    exact ⟨j, List.mem_range.2 hj, colsAny_iff.2 ⟨i, hi, hd⟩⟩

theorem normalize_guard_eq_false {a : Bitmap} (ha : hasTrue a) :
    (!((List.range a.h).any (rowsAny a)) || !((List.range a.w).any (colsAny a))) = false := by
  rw [any_rows_iff.2 ha, any_cols_iff.2 ha]
  rfl

theorem normalize_char_noForm_iff {r : Resample} {a : Bitmap} :
    normalize_char r a = NormOut.noForm ↔ ¬ hasTrue a := by
  unfold normalize_char
  by_cases hg : (!((List.range a.h).any (rowsAny a)) || !((List.range a.w).any (colsAny a)))
      = true
  · rw [if_pos hg]
    simp only [true_iff]
    intro ha
    rw [normalize_guard_eq_false ha] at hg
    exact Bool.false_ne_true hg
  · rw [if_neg hg]
    constructor
    · intro hc
      by_cases h0 : (newHOf a = 0 || newWOf a = 0) = true
      · rw [if_pos h0] at hc
        exact absurd hc (by intro h; cases h)
      · rw [if_neg h0] at hc
        exact absurd hc (by intro h; cases h)
    · intro hna
      exfalso
      apply hg
      simp only [Bool.or_eq_true, Bool.not_eq_true']
      by_contra hboth
      push_neg at hboth
      have h1 : ((List.range a.h).any (rowsAny a)) = true := by
        cases hc : (List.range a.h).any (rowsAny a)
        · exact absurd hc hboth.1
        · rfl
      exact hna (any_rows_iff.1 h1)

theorem rbox_spec {a : Bitmap} (ha : hasTrue a) :
    rminOf a < a.h ∧ rmaxOf a < a.h ∧ rminOf a ≤ rmaxOf a
      ∧ rowsAny a (rminOf a) = true ∧ rowsAny a (rmaxOf a) = true
      ∧ ∀ i, i < a.h → rowsAny a i = true → rminOf a ≤ i ∧ i ≤ rmaxOf a := by
  have hex : ∃ i, i < a.h ∧ rowsAny a i = true := by
    rcases ha with ⟨i, j, hi, hj, hd⟩
    exact ⟨i, hi, rowsAny_iff.2 ⟨j, hj, hd⟩⟩
  rcases firstTrue_spec hex with ⟨f1, f2, f3⟩
  rcases lastTrue_spec hex with ⟨l1, l2, l3⟩
  rcases hex with ⟨i0, hi0, hr0⟩
  exact ⟨f1, l1, le_trans (f3 i0 hi0 hr0) (l3 i0 hi0 hr0), f2, l2,
    fun i h1 h2 => ⟨f3 i h1 h2, l3 i h1 h2⟩⟩

theorem cbox_spec {a : Bitmap} (ha : hasTrue a) :
    cminOf a < a.w ∧ cmaxOf a < a.w ∧ cminOf a ≤ cmaxOf a
      ∧ colsAny a (cminOf a) = true ∧ colsAny a (cmaxOf a) = true
      ∧ ∀ j, j < a.w → colsAny a j = true → cminOf a ≤ j ∧ j ≤ cmaxOf a := by
  have hex : ∃ j, j < a.w ∧ colsAny a j = true := by
    rcases ha with ⟨i, j, hi, hj, hd⟩
    exact ⟨j, hj, colsAny_iff.2 ⟨i, hi, hd⟩⟩
  rcases firstTrue_spec hex with ⟨f1, f2, f3⟩
  rcases lastTrue_spec hex with ⟨l1, l2, l3⟩
  rcases hex with ⟨j0, hj0, hc0⟩
  exact ⟨f1, l1, le_trans (f3 j0 hj0 hc0) (l3 j0 hj0 hc0), f2, l2,
    fun j h1 h2 => ⟨f3 j h1 h2, l3 j h1 h2⟩⟩

theorem cropOf_pos {a : Bitmap} (ha : hasTrue a) :
    0 < (cropOf a).h ∧ 0 < (cropOf a).w := by
  rcases rbox_spec ha with ⟨_, _, hr, _, _, _⟩
  rcases cbox_spec ha with ⟨_, _, hc, _, _, _⟩
  constructor
  · show 0 < rmaxOf a + 1 - rminOf a
    omega
  · show 0 < cmaxOf a + 1 - cminOf a
    omega

theorem floor_scale_eq {h w : Nat} (hh : 0 < h) (hw : 0 < w) :
    (⌊(h : ℚ) * min ((40 : ℚ) / (h : ℚ)) ((40 : ℚ) / (w : ℚ))⌋).toNat
      = h * 40 / max h w := by
  have hmq : min ((40 : ℚ) / (h : ℚ)) ((40 : ℚ) / (w : ℚ)) = (40 : ℚ) / ((max h w : ℕ) : ℚ) := by
    rcases le_total h w with hle | hle
    · rw [Nat.max_eq_right hle, min_eq_right]
      exact div_le_div_of_nonneg_left (by norm_num) (by exact_mod_cast hh) (by exact_mod_cast hle)
    · rw [Nat.max_eq_left hle, min_eq_left]
      exact div_le_div_of_nonneg_left (by norm_num) (by exact_mod_cast hw) (by exact_mod_cast hle)
  rw [hmq]
  have hmpos : 0 < max h w := lt_of_lt_of_le hh (le_max_left _ _)
  have harith : (h : ℚ) * ((40 : ℚ) / ((max h w : ℕ) : ℚ)) = ((h * 40 : ℕ) : ℚ) / ((max h w : ℕ) : ℚ) := by
    push_cast
    ring
  rw [harith, Int.floor_toNat]
  exact_mod_cast Nat.floor_div_nat (α := ℚ) (h * 40) (max h w)

theorem newHOf_eq {a : Bitmap} (ha : hasTrue a) :
    newHOf a = (cropOf a).h * 40 / max (cropOf a).h (cropOf a).w := by
  unfold newHOf scaleOf
  exact floor_scale_eq (cropOf_pos ha).1 (cropOf_pos ha).2

theorem newWOf_eq {a : Bitmap} (ha : hasTrue a) :
    newWOf a = (cropOf a).w * 40 / max (cropOf a).h (cropOf a).w := by
  unfold newWOf scaleOf
  rw [show min ((40 : ℚ) / ((cropOf a).h : ℚ)) ((40 : ℚ) / ((cropOf a).w : ℚ))
      = min ((40 : ℚ) / ((cropOf a).w : ℚ)) ((40 : ℚ) / ((cropOf a).h : ℚ)) from min_comm _ _]
  have := floor_scale_eq (cropOf_pos ha).2 (cropOf_pos ha).1
  rw [this, Nat.max_comm]

theorem list_any_congr {α : Type} {l : List α} {f g : α → Bool}
    (h : ∀ x ∈ l, f x = g x) : l.any f = l.any g := by
  induction l with
  | nil => rfl
  | cons x xs ih =>
    simp only [List.any_cons]
    rw [h x (List.mem_cons_self x xs), ih fun y hy => h y (List.mem_cons_of_mem _ hy)]

theorem sameMask_hasTrue {a b : Bitmap} (hs : sameMask a b) : hasTrue a ↔ hasTrue b := by
  rcases hs with ⟨h1, h2, h3⟩
  unfold hasTrue
  constructor
  · rintro ⟨i, j, hi, hj, hd⟩
    exact ⟨i, j, h1 ▸ hi, h2 ▸ hj, (h3 i j hi hj) ▸ hd⟩
  · rintro ⟨i, j, hi, hj, hd⟩
    exact ⟨i, j, h1 ▸ hi, h2 ▸ hj, by rw [h3 i j (h1 ▸ hi) (h2 ▸ hj)]; exact hd⟩

theorem rowsAny_congr {a b : Bitmap} (hs : sameMask a b) {i : Nat} (hi : i < a.h) :
    rowsAny a i = rowsAny b i := by
  unfold rowsAny
  rw [← hs.2.1]
  exact list_any_congr fun j hj => hs.2.2 i j hi (List.mem_range.1 hj)

theorem colsAny_congr {a b : Bitmap} (hs : sameMask a b) {j : Nat} (hj : j < a.w) :
    colsAny a j = colsAny b j := by
  unfold colsAny
  rw [← hs.1]
  exact list_any_congr fun i hi => hs.2.2 i j (List.mem_range.1 hi) hj

theorem rowsFilter_congr {a b : Bitmap} (hs : sameMask a b) :
    (List.range a.h).filter (rowsAny a) = (List.range b.h).filter (rowsAny b) := by
  rw [← hs.1]
  exact List.filter_congr fun i hi => rowsAny_congr hs (List.mem_range.1 hi)

theorem colsFilter_congr {a b : Bitmap} (hs : sameMask a b) :
    (List.range a.w).filter (colsAny a) = (List.range b.w).filter (colsAny b) := by
  rw [← hs.2.1]
  exact List.filter_congr fun j hj => colsAny_congr hs (List.mem_range.1 hj)

theorem rminOf_congr {a b : Bitmap} (hs : sameMask a b) : rminOf a = rminOf b := by
  unfold rminOf firstTrue
  rw [rowsFilter_congr hs]

theorem rmaxOf_congr {a b : Bitmap} (hs : sameMask a b) : rmaxOf a = rmaxOf b := by
  unfold rmaxOf lastTrue
  rw [rowsFilter_congr hs]

theorem cminOf_congr {a b : Bitmap} (hs : sameMask a b) : cminOf a = cminOf b := by
  unfold cminOf firstTrue
  rw [colsFilter_congr hs]

theorem cmaxOf_congr {a b : Bitmap} (hs : sameMask a b) : cmaxOf a = cmaxOf b := by
  unfold cmaxOf lastTrue
  rw [colsFilter_congr hs]

theorem cropOf_congr {a b : Bitmap} (hs : sameMask a b) (ha : hasTrue a) :
    cropOf a = cropOf b := by
  have e1 := rminOf_congr hs
  have e2 := rmaxOf_congr hs
  have e3 := cminOf_congr hs
  have e4 := cmaxOf_congr hs
  rcases rbox_spec ha with ⟨_, hr2, hr3, _, _, _⟩
  rcases cbox_spec ha with ⟨_, hc2, hc3, _, _, _⟩
  unfold cropOf
  simp only [← e1, ← e2, ← e3, ← e4]
  congr 1
  funext i j
  by_cases h1 : i < rmaxOf a + 1 - rminOf a
  · by_cases h2 : j < cmaxOf a + 1 - cminOf a
    · simp only [decide_eq_true_eq, h1, h2, decide_eq_true (p := i < rmaxOf a + 1 - rminOf a) h1,
        decide_eq_true (p := j < cmaxOf a + 1 - cminOf a) h2, Bool.true_and]
      exact hs.2.2 _ _ (by omega) (by omega)
    · simp [h2]
  · simp [h1]

theorem normalize_char_congr {r : Resample} {a b : Bitmap} (hs : sameMask a b) :
    normalize_char r a = normalize_char r b := by
  by_cases ha : hasTrue a
  · have hb : hasTrue b := (sameMask_hasTrue hs).1 ha
    have ecrop := cropOf_congr hs ha
    have eH : newHOf a = newHOf b := by
      unfold newHOf scaleOf
      rw [ecrop]
    have eW : newWOf a = newWOf b := by
      unfold newWOf scaleOf
      rw [ecrop]
    unfold normalize_char
    simp only [normalize_guard_eq_false ha, normalize_guard_eq_false hb, eH, eW, ecrop,
      Bool.false_eq_true, if_false]
  · have hb : ¬ hasTrue b := fun h => ha ((sameMask_hasTrue hs).2 h)
    exact (normalize_char_noForm_iff.2 ha).trans (normalize_char_noForm_iff.2 hb).symm

theorem normalize_char_raised {r : Resample} {a : Bitmap} (ha : hasTrue a)
    (h0 : newHOf a = 0 ∨ newWOf a = 0) : normalize_char r a = NormOut.raised := by
  unfold normalize_char
  rw [if_neg (by rw [normalize_guard_eq_false ha]; exact Bool.false_ne_true)]
  rw [if_pos (by rcases h0 with h | h <;> simp [h])]

theorem normalize_char_ok {r : Resample} {a : Bitmap} (ha : hasTrue a)
    (hH : newHOf a ≠ 0) (hW : newWOf a ≠ 0) :
    normalize_char r a = NormOut.ok (fun i j =>
      decide ((40 - newHOf a) / 2 ≤ i) && decide (i < (40 - newHOf a) / 2 + newHOf a)
        && decide ((40 - newWOf a) / 2 ≤ j) && decide (j < (40 - newWOf a) / 2 + newWOf a)
        && decide (128 < r (cropOf a) (newHOf a) (newWOf a)
            (i - (40 - newHOf a) / 2) (j - (40 - newWOf a) / 2))) := by
  unfold normalize_char
  rw [if_neg (by rw [normalize_guard_eq_false ha]; exact Bool.false_ne_true)]
  rw [if_neg (by simp [hH, hW])]

theorem newHOf_le_40 {a : Bitmap} (ha : hasTrue a) :
    newHOf a ≤ 40 ∧ newWOf a ≤ 40 := by
  rw [newHOf_eq ha, newWOf_eq ha]
  have hm : 0 < max (cropOf a).h (cropOf a).w :=
    lt_of_lt_of_le (cropOf_pos ha).1 (le_max_left _ _)
  constructor
  · calc (cropOf a).h * 40 / max (cropOf a).h (cropOf a).w
        ≤ max (cropOf a).h (cropOf a).w * 40 / max (cropOf a).h (cropOf a).w :=
          Nat.div_le_div_right (Nat.mul_le_mul_right _ (le_max_left _ _))
      _ = 40 := Nat.mul_div_cancel_left _ hm
  · calc (cropOf a).w * 40 / max (cropOf a).h (cropOf a).w
        ≤ max (cropOf a).h (cropOf a).w * 40 / max (cropOf a).h (cropOf a).w :=
          Nat.div_le_div_right (Nat.mul_le_mul_right _ (le_max_right _ _))
      _ = 40 := Nat.mul_div_cancel_left _ hm

/-! Counting grid pixels, Jaccard score facts, and the classifier fold. -/

theorem countGrid_congr {f g : Nat → Nat → Bool}
    (h : ∀ i j, i < 40 → j < 40 → f i j = g i j) : countGrid f = countGrid g := by
  unfold countGrid
  congr 1
  refine List.map_congr_left ?_
  intro i hi
  congr 1
  exact List.filter_congr fun j hj => h i j (List.mem_range.1 hi) (List.mem_range.1 hj)

theorem sum_map_le {l : List Nat} {u v : Nat → Nat} (h : ∀ x ∈ l, u x ≤ v x) :
    (l.map u).sum ≤ (l.map v).sum := by
  induction l with
  | nil => simp
  | cons x xs ih =>
    simp only [List.map_cons, List.sum_cons]
    have h1 := h x (List.mem_cons_self x xs)
    have h2 := ih fun y hy => h y (List.mem_cons_of_mem _ hy)
    omega

theorem sum_map_eq_forall {l : List Nat} {u v : Nat → Nat} (h : ∀ x ∈ l, u x ≤ v x)
    (heq : (l.map u).sum = (l.map v).sum) : ∀ x ∈ l, u x = v x := by
  induction l with
  | nil => simp
  | cons x xs ih =>
    simp only [List.map_cons, List.sum_cons] at heq
    have h1 := h x (List.mem_cons_self x xs)
    have h2 := sum_map_le fun y hy => h y (List.mem_cons_of_mem _ hy)
    intro y hy
    rcases List.mem_cons.1 hy with rfl | hy'
    · omega
    · exact ih (fun z hz => h z (List.mem_cons_of_mem _ hz)) (by omega) y hy'

theorem countGrid_mono {f g : Nat → Nat → Bool}
    (h : ∀ i j, i < 40 → j < 40 → f i j = true → g i j = true) :
    countGrid f ≤ countGrid g := by
  unfold countGrid
  refine sum_map_le ?_
  intro i hi
  exact filter_length_mono _ _ _ fun j hj => h i j (List.mem_range.1 hi) (List.mem_range.1 hj)

theorem countGrid_eq_pointwise {f g : Nat → Nat → Bool}
    (h : ∀ i j, i < 40 → j < 40 → f i j = true → g i j = true)
    (heq : countGrid f = countGrid g) : ∀ i j, i < 40 → j < 40 → f i j = g i j := by
  unfold countGrid at heq
  intro i j hi hj
  have hrow := sum_map_eq_forall
    (fun i hi => filter_length_mono _ _ _
      fun j hj => h i j (List.mem_range.1 hi) (List.mem_range.1 hj))
    heq i (List.mem_range.2 hi)
  by_cases hf : f i j = true
  · rw [hf, (h i j hi hj hf).symm]
  · cases hg : g i j
    · rw [Bool.eq_false_iff.2 hf]
    · exfalso
      have hlt := filter_length_strict (List.range 40) (fun j => f i j) (fun j => g i j)
        (fun j hj hfj => h i j hi (List.mem_range.1 hj) hfj) j (List.mem_range.2 hj)
        (Bool.eq_false_iff.2 hf) hg
      exact Nat.ne_of_lt hlt hrow

theorem interCount_le_unionCount {g : Glyph} {t : Bitmap} :
    interCount g t ≤ unionCount g t := by
  unfold interCount unionCount
  refine countGrid_mono ?_
  intro i j _ _ h
  rw [Bool.and_eq_true] at h
  rw [Bool.or_eq_true]
  exact Or.inl h.1

theorem score_nonneg {g : Glyph} {t : Bitmap} : 0 ≤ score g t := by
  unfold score
  by_cases hu : 0 < unionCount g t
  · rw [if_pos hu]
    exact div_nonneg (Nat.cast_nonneg _) (Nat.cast_nonneg _)
  · rw [if_neg hu]

theorem score_le_one {g : Glyph} {t : Bitmap} : score g t ≤ 1 := by
  unfold score
  split
  · rename_i hu
    rw [div_le_one (by exact_mod_cast hu)]
    exact_mod_cast interCount_le_unionCount
  · norm_num

theorem score_symm {f g : Glyph} : score f (toBitmap g) = score g (toBitmap f) := by
  have hi : interCount f (toBitmap g) = interCount g (toBitmap f) := by
    unfold interCount
    exact countGrid_congr fun i j _ _ => Bool.and_comm _ _
  have hu : unionCount f (toBitmap g) = unionCount g (toBitmap f) := by
    unfold unionCount
    exact countGrid_congr fun i j _ _ => Bool.or_comm _ _
  unfold score
  rw [hi, hu]

theorem gridEq_iff {g : Glyph} {t : Bitmap} :
    gridEq g t = true ↔ ∀ i j, i < 40 → j < 40 → g i j = t.data i j := by
  unfold gridEq
  simp only [List.all_eq_true, List.mem_range, beq_iff_eq]
  exact ⟨fun h i j hi hj => h i hi j hj, fun h i hi j hj => h i j hi hj⟩

theorem countGrid_false : countGrid (fun _ _ => false) = 0 := by
  decide

theorem score_eq_one_of_gridEq {g : Glyph} {t : Bitmap} (he : gridEq g t = true)
    (hc : 0 < countGrid g) : score g t = 1 := by
  have hpt := gridEq_iff.1 he
  have hi : interCount g t = countGrid g := by
    unfold interCount
    refine countGrid_congr ?_
    intro i j hi hj
    rw [← hpt i j hi hj, Bool.and_self]
  have hu : unionCount g t = countGrid g := by
    unfold unionCount
    refine countGrid_congr ?_
    intro i j hi hj
    rw [← hpt i j hi hj, Bool.or_self]
  unfold score
  rw [hi, hu, if_pos hc]
  rw [div_self]
  exact_mod_cast hc.ne'

theorem score_zero_of_inter_zero {g : Glyph} {t : Bitmap} (h : interCount g t = 0) :
    score g t = 0 := by
  unfold score
  split
  · rw [h]
    norm_num
  · rfl

theorem score_zero_of_disjoint {g : Glyph} {t : Bitmap}
    (h : ∀ i j, i < 40 → j < 40 → ¬(g i j = true ∧ t.data i j = true)) :
    score g t = 0 := by
  refine score_zero_of_inter_zero ?_
  unfold interCount
  rw [countGrid_congr (g := fun _ _ => false) ?_, countGrid_false]
  intro i j hi hj
  cases hg : g i j
  · rfl
  · cases ht : t.data i j
    · rfl
    · exact absurd ⟨hg, ht⟩ (h i j hi hj)

theorem score_zero_of_union_zero {g : Glyph} {t : Bitmap} (h : unionCount g t = 0) :
    score g t = 0 := by
  unfold score
  rw [if_neg (by omega)]

theorem score_one_gridEq {g : Glyph} {t : Bitmap} (h : score g t = 1) :
    gridEq g t = true ∧ 0 < unionCount g t := by
  unfold score at h
  by_cases hu : 0 < unionCount g t
  · rw [if_pos hu] at h
    have hne : ((unionCount g t : ℚ)) ≠ 0 := by exact_mod_cast hu.ne'
    rw [div_eq_one_iff_eq hne] at h
    have hiu : interCount g t = unionCount g t := by exact_mod_cast h
    have hpt := countGrid_eq_pointwise
      (f := fun i j => g i j && t.data i j) (g := fun i j => g i j || t.data i j)
      (fun i j _ _ hf => by
        rw [Bool.and_eq_true] at hf
        rw [Bool.or_eq_true]
        exact Or.inl hf.1)
      hiu
    refine ⟨gridEq_iff.2 ?_, hu⟩
    intro i j hi hj
    have hb : (g i j && t.data i j) = (g i j || t.data i j) := hpt i j hi hj
    cases hg : g i j <;> cases ht : t.data i j <;> rw [hg, ht] at hb <;>
      first | rfl | simp at hb
  · rw [if_neg hu] at h
    norm_num at h

theorem foldBest_step_spec (s : String × Bitmap → ℚ) :
    ∀ (pairs : List (String × Bitmap)) (init : String × ℚ),
      ((pairs.foldl (fun best ct => if best.2 < s ct then (ct.1, s ct) else best) init) = init
        ∨ ∃ ct ∈ pairs, (pairs.foldl
            (fun best ct => if best.2 < s ct then (ct.1, s ct) else best) init) = (ct.1, s ct))
      ∧ init.2 ≤ (pairs.foldl
          (fun best ct => if best.2 < s ct then (ct.1, s ct) else best) init).2
      ∧ ∀ ct ∈ pairs, s ct ≤ (pairs.foldl
          (fun best ct => if best.2 < s ct then (ct.1, s ct) else best) init).2 := by
  intro pairs
  induction pairs with
  | nil => intro init; exact ⟨Or.inl rfl, le_refl _, by simp⟩
  | cons ct rest ih =>
    intro init
    simp only [List.foldl_cons]
    by_cases hlt : init.2 < s ct
    · rw [if_pos hlt]
      rcases ih (ct.1, s ct) with ⟨ih1, ih2, ih3⟩
      refine ⟨?_, ?_, ?_⟩
      · rcases ih1 with h | ⟨ct2, hct2, h⟩
        · exact Or.inr ⟨ct, List.mem_cons_self _ _, h⟩
        · exact Or.inr ⟨ct2, List.mem_cons_of_mem _ hct2, h⟩
      · exact le_trans (le_of_lt hlt) ih2
      · intro ct2 hct2
        rcases List.mem_cons.1 hct2 with rfl | h2
        · exact ih2
        · exact ih3 ct2 h2
    · rw [if_neg hlt]
      rcases ih init with ⟨ih1, ih2, ih3⟩
      refine ⟨?_, ih2, ?_⟩
      · rcases ih1 with h | ⟨ct2, hct2, h⟩
        · exact Or.inl h
        · exact Or.inr ⟨ct2, List.mem_cons_of_mem _ hct2, h⟩
      · intro ct2 hct2
        rcases List.mem_cons.1 hct2 with rfl | h2
        · exact le_trans (le_of_not_lt hlt) ih2
        · exact ih3 ct2 h2

theorem bestFold_spec (g : Glyph) (pairs : List (String × Bitmap)) :
    (bestFold g pairs = ("?", -1)
        ∨ ∃ ct ∈ pairs, bestFold g pairs = (ct.1, score g ct.2))
      ∧ (-1 : ℚ) ≤ (bestFold g pairs).2
      ∧ ∀ ct ∈ pairs, score g ct.2 ≤ (bestFold g pairs).2 :=
  foldBest_step_spec (fun ct => score g ct.2) pairs ("?", -1)

theorem foldBest_stay (s : String × Bitmap → ℚ) :
    ∀ (pairs : List (String × Bitmap)) (b : String × ℚ),
      (∀ ct ∈ pairs, s ct ≤ b.2) →
      pairs.foldl (fun best ct => if best.2 < s ct then (ct.1, s ct) else best) b = b := by
  intro pairs
  induction pairs with
  | nil => intro b _; rfl
  | cons ct rest ih =>
    intro b hb
    simp only [List.foldl_cons]
    rw [if_neg (not_lt_of_le (hb ct (List.mem_cons_self _ _)))]
    exact ih b fun ct2 hct2 => hb ct2 (List.mem_cons_of_mem _ hct2)

theorem foldBest_all_zero (s : String × Bitmap → ℚ)
    (pairs : List (String × Bitmap)) (hz : ∀ ct ∈ pairs, s ct = 0) :
    pairs.foldl (fun best ct => if best.2 < s ct then (ct.1, s ct) else best) ("?", -1)
      = ((pairs.map fun ct => (ct.1, s ct)).headD ("?", -1)) := by
  cases pairs with
  | nil => rfl
  | cons ct rest =>
    simp only [List.foldl_cons, List.map_cons, List.headD_cons]
    rw [if_pos (by rw [hz ct (List.mem_cons_self _ _)]; norm_num)]
    exact foldBest_stay s rest _ fun ct2 hct2 => by
      rw [hz ct2 (List.mem_cons_of_mem _ hct2), hz ct (List.mem_cons_self _ _)]

theorem bestFold_all_zero (g : Glyph) (pairs : List (String × Bitmap))
    (hz : ∀ ct ∈ pairs, score g ct.2 = 0) :
    bestFold g pairs = ((pairs.map fun ct => (ct.1, score g ct.2)).headD ("?", -1)) := by
  unfold bestFold
  exact foldBest_all_zero (fun ct => score g ct.2) pairs hz

/-! The extractor: thresholding and the 3x3 median majority. -/

theorem threshAt_iff {img : RGBImage} {i j : Nat} :
    threshAt img i j = true ↔ specFG img i j := by
  unfold threshAt specFG
  simp [and_assoc]

theorem decide_specFG {img : RGBImage} {i j : Nat} :
    decide (specFG img i j) = threshAt img i j := by
  by_cases h : specFG img i j
  · rw [decide_eq_true h, threshAt_iff.2 h]
  · rw [decide_eq_false h, Bool.eq_false_iff.2 (fun ht => h (threshAt_iff.1 ht))]

theorem extract_red_mask_spec (img : RGBImage) (i j : Nat) :
    (extract_red_mask img).data i j = true
      ↔ 5 ≤ window3.countP fun d =>
          decide (specFG img (reflectIdx img.h ((i : Int) + d.1))
            (reflectIdx img.w ((j : Int) + d.2))) := by
  show decide (5 ≤ medianCount img i j) = true ↔ _
  rw [decide_eq_true_eq]
  unfold medianCount
  rw [List.countP_eq_length_filter]
  rw [List.filter_congr fun d _ => (@decide_specFG img
    (reflectIdx img.h ((i : Int) + d.1)) (reflectIdx img.w ((j : Int) + d.2))).symm]

/-! The recognizer on an empty mask. -/

theorem compsAux_zero_rest {m : Bitmap} : ∀ fuel, compsAux m fuel 0 = [] := by
  intro fuel
  cases fuel with
  | zero => rfl
  | succ n =>
    unfold compsAux
    rw [if_pos rfl]

theorem trueBits_zero {m : Bitmap}
    (hm : ∀ i j, i < m.h → j < m.w → m.data i j = false) : trueBits m = 0 := by
  apply Nat.eq_of_testBit_eq
  intro k
  rw [Nat.zero_testBit]
  cases hb : (trueBits m).testBit k
  · rfl
  · rcases trueBits_testBit.1 hb with ⟨q, hq, hmask, _⟩
    rcases maskAt_iff.1 hmask with ⟨h1, h2, h3⟩
    rw [hm q.1 q.2 h1 h2] at h3
    exact absurd h3 (by simp)

theorem extract_characters_nil {m : Bitmap}
    (hm : ∀ i j, i < m.h → j < m.w → m.data i j = false) :
    extract_characters m = [] := by
  unfold extract_characters validChars componentsOf
  rw [trueBits_zero hm, compsAux_zero_rest]
  rfl

/-! Rectangles of foreground pixels are connected. -/

theorem conn_right {m : Bitmap} {i j1 : Nat} :
    ∀ (d : Nat), (∀ j, j1 ≤ j → j ≤ j1 + d → maskAt m (i, j) = true) →
      connTo m (i, j1) (i, j1 + d) := by
  intro d
  induction d with
  | zero => intro _; exact Relation.ReflTransGen.refl
  | succ d ih =>
    intro hall
    have hstep : stepP m (i, j1 + d) (i, j1 + (d + 1)) := by
      refine ⟨hall _ (by omega) (by omega), hall _ (by omega) (by omega), ?_⟩
      rw [mem_nbrs]
      right
      left
      exact ⟨by omega, rfl⟩
    exact (ih fun j hj1 hj2 => hall j hj1 (by omega)).tail hstep

theorem conn_down {m : Bitmap} {i1 j : Nat} :
    ∀ (d : Nat), (∀ i, i1 ≤ i → i ≤ i1 + d → maskAt m (i, j) = true) →
      connTo m (i1, j) (i1 + d, j) := by
  intro d
  induction d with
  | zero => intro _; exact Relation.ReflTransGen.refl
  | succ d ih =>
    intro hall
    have hstep : stepP m (i1 + d, j) (i1 + (d + 1), j) := by
      refine ⟨hall _ (by omega) (by omega), hall _ (by omega) (by omega), ?_⟩
      rw [mem_nbrs]
      left
      exact ⟨by omega, rfl⟩
    exact (ih fun i hi1 hi2 => hall i hi1 (by omega)).tail hstep

theorem rect_conn {m : Bitmap} {r0 r1 c0 c1 : Nat}
    (hall : ∀ i j, r0 ≤ i → i ≤ r1 → c0 ≤ j → j ≤ c1 → maskAt m (i, j) = true)
    {p q : Pix} (hp : r0 ≤ p.1 ∧ p.1 ≤ r1 ∧ c0 ≤ p.2 ∧ p.2 ≤ c1)
    (hq : r0 ≤ q.1 ∧ q.1 ≤ r1 ∧ c0 ≤ q.2 ∧ q.2 ≤ c1) :
    connTo m p q := by
  have hcol : ∀ i, r0 ≤ i → i ≤ r1 → ∀ a b, c0 ≤ a → a ≤ c1 → c0 ≤ b → b ≤ c1 →
      connTo m (i, a) (i, b) := by
    intro i hi1 hi2 a b ha1 ha2 hb1 hb2
    rcases le_total a b with hab | hab
    · have := @conn_right m i a (b - a)
        (fun j hj1 hj2 => hall i j hi1 hi2 (by omega) (by omega))
      rwa [show a + (b - a) = b by omega] at this
    · have := @conn_right m i b (a - b)
        (fun j hj1 hj2 => hall i j hi1 hi2 (by omega) (by omega))
      rw [show b + (a - b) = a by omega] at this
      exact connTo_symm this
  have hrow : ∀ j, c0 ≤ j → j ≤ c1 → ∀ a b, r0 ≤ a → a ≤ r1 → r0 ≤ b → b ≤ r1 →
      connTo m (a, j) (b, j) := by
    intro j hj1 hj2 a b ha1 ha2 hb1 hb2
    rcases le_total a b with hab | hab
    · have := @conn_down m a j (b - a)
        (fun i hi1 hi2 => hall i j (by omega) (by omega) hj1 hj2)
      rwa [show a + (b - a) = b by omega] at this
    · have := @conn_down m b j (a - b)
        (fun i hi1 hi2 => hall i j (by omega) (by omega) hj1 hj2)
      rw [show b + (a - b) = a by omega] at this
      exact connTo_symm this
  have h1 : connTo m p (p.1, q.2) := by
    have := hcol p.1 hp.1 hp.2.1 p.2 q.2 hp.2.2.1 hp.2.2.2 hq.2.2.1 hq.2.2.2
    exact this
  have h2 : connTo m (p.1, q.2) (q.1, q.2) :=
    hrow q.2 hq.2.2.1 hq.2.2.2 p.1 q.1 hp.1 hp.2.1 hq.1 hq.2.1
  have h3 : connTo m p (q.1, q.2) := connTo_trans h1 h2
  have hq' : q = (q.1, q.2) := rfl
  rw [hq']
  exact h3

/-! A mask that is foreground everywhere yields exactly one component. -/

theorem foldl_min_mem : ∀ (l : List Nat) (acc : Nat),
    l.foldl min acc = acc ∨ l.foldl min acc ∈ l := by
  intro l
  induction l with
  | nil => intro acc; exact Or.inl rfl
  | cons x xs ih =>
    intro acc
    simp only [List.foldl_cons]
    rcases ih (min acc x) with h | h
    · rcases Nat.lt_or_ge x acc with hlt | hle
      · right
        rw [h, min_eq_right (by omega : x ≤ acc)]
        exact List.mem_cons_self _ _
      · left
        rw [h, min_eq_left hle]
    · right
      exact List.mem_cons_of_mem _ h

theorem minD_mem {l : List Nat} (h : l ≠ []) : minD l ∈ l := by
  cases l with
  | nil => exact absurd rfl h
  | cons x xs =>
    show xs.foldl min x ∈ x :: xs
    rcases foldl_min_mem xs x with h1 | h1
    · rw [h1]
      exact List.mem_cons_self _ _
    · exact List.mem_cons_of_mem _ h1

theorem foldl_max_mem : ∀ (l : List Nat) (acc : Nat),
    l.foldl max acc = acc ∨ l.foldl max acc ∈ l := by
  intro l
  induction l with
  | nil => intro acc; exact Or.inl rfl
  | cons x xs ih =>
    intro acc
    simp only [List.foldl_cons]
    rcases ih (max acc x) with h | h
    · rcases Nat.lt_or_ge acc x with hlt | hle
      · right
        rw [h, max_eq_right (by omega : acc ≤ x)]
        exact List.mem_cons_self _ _
      · left
        rw [h, max_eq_left hle]
    · right
      exact List.mem_cons_of_mem _ h

theorem maxD_mem {l : List Nat} (h : l ≠ []) : maxD l ∈ l := by
  cases l with
  | nil => exact absurd rfl h
  | cons x xs =>
    show xs.foldl max x ∈ x :: xs
    rcases foldl_max_mem xs x with h1 | h1
    · rw [h1]
      exact List.mem_cons_self _ _
    · exact List.mem_cons_of_mem _ h1

theorem componentsOf_full {m : Bitmap} (hh : 0 < m.h) (hw : 0 < m.w)
    (hall : ∀ i j, i < m.h → j < m.w → m.data i j = true) :
    componentsOf m = [allPix m] := by
  have hmask : ∀ p : Pix, p.1 < m.h → p.2 < m.w → maskAt m p = true :=
    fun p h1 h2 => maskAt_iff.2 ⟨h1, h2, hall _ _ h1 h2⟩
  have hconn : ∀ p q : Pix, p.1 < m.h → p.2 < m.w → q.1 < m.h → q.2 < m.w →
      connTo m p q := by
    intro p q h1 h2 h3 h4
    exact @rect_conn m 0 (m.h - 1) 0 (m.w - 1)
      (fun i j _ hi _ hj => hmask (i, j) (by omega) (by omega)) p q
      ⟨by omega, by omega, by omega, by omega⟩ ⟨by omega, by omega, by omega, by omega⟩
  have hcomp : ∀ p : Pix, p.1 < m.h → p.2 < m.w → comp m p = allPix m := by
    intro p h1 h2
    unfold comp compOfBits
    refine List.filter_eq_self.2 ?_
    intro q hq
    rcases mem_allPix.1 hq with ⟨hq1, hq2⟩
    exact (compBits_mem (hmask p h1 h2)).2 ⟨hmask q hq1 hq2, hconn p q h1 h2 hq1 hq2⟩
  obtain ⟨c, hc, hmemc⟩ := componentsOf_cover (m := m) (q := (0, 0)) (hmask _ hh hw)
  cases hcomps : componentsOf m with
  | nil =>
    rw [hcomps] at hc
    exact absurd hc (List.not_mem_nil _)
  | cons c1 rest =>
    obtain ⟨p1, hp1, hc1⟩ := componentsOf_shape c1 (hcomps ▸ List.mem_cons_self _ _)
    rcases maskAt_iff.1 hp1 with ⟨hb1, hb2, _⟩
    have hc1' : c1 = allPix m := by
      rw [hc1, hcomp p1 hb1 hb2]
    cases hrest : rest with
    | nil => rw [hc1']
    | cons c2 r2 =>
      exfalso
      obtain ⟨p2, hp2, hc2⟩ := componentsOf_shape c2 (by
        rw [hcomps, hrest]
        exact List.mem_cons_of_mem _ (List.mem_cons_self _ _))
      rcases maskAt_iff.1 hp2 with ⟨hd1, hd2, _⟩
      have hpair := componentsOf_pairwise (m := m)
      rw [hcomps, hrest] at hpair
      rcases List.pairwise_cons.1 hpair with ⟨hhead, _⟩
      refine hhead c2 (List.mem_cons_self _ _) p1 ?_ p2 ?_ (hconn p1 p2 hb1 hb2 hd1 hd2)
      · rw [hc1]
        exact comp_self_mem hp1
      · rw [hc2]
        exact comp_self_mem hp2

theorem charBitmap_allPix {m : Bitmap} (hh : 0 < m.h) (hw : 0 < m.w) :
    (charBitmap (allPix m)).h = m.h ∧ (charBitmap (allPix m)).w = m.w
      ∧ ∀ i j, (charBitmap (allPix m)).data i j = true ↔ (i < m.h ∧ j < m.w) := by
  have hne : allPix m ≠ [] := by
    intro h0
    have := (mem_allPix (m := m) (p := ((0 : Nat), (0 : Nat)))).2 ⟨hh, hw⟩
    rw [h0] at this
    exact List.not_mem_nil _ this
  have hfne : (allPix m).map Prod.fst ≠ [] := by
    intro h0
    exact hne (List.map_eq_nil_iff.1 h0)
  have hsne : (allPix m).map Prod.snd ≠ [] := by
    intro h0
    exact hne (List.map_eq_nil_iff.1 h0)
  have hrmin : minD ((allPix m).map Prod.fst) = 0 := by
    have h1 : (0 : Nat) ∈ (allPix m).map Prod.fst :=
      List.mem_map_of_mem Prod.fst ((mem_allPix (m := m) (p := ((0 : Nat), (0 : Nat)))).2 ⟨hh, hw⟩)
    have := minD_le h1
    omega
  have hcmin : minD ((allPix m).map Prod.snd) = 0 := by
    have h1 : (0 : Nat) ∈ (allPix m).map Prod.snd :=
      List.mem_map_of_mem Prod.snd ((mem_allPix (m := m) (p := ((0 : Nat), (0 : Nat)))).2 ⟨hh, hw⟩)
    have := minD_le h1
    omega
  have hrmax : maxD ((allPix m).map Prod.fst) = m.h - 1 := by
    have h1 : (m.h - 1 : Nat) ∈ (allPix m).map Prod.fst :=
      List.mem_map_of_mem Prod.fst
        ((mem_allPix (m := m) (p := ((m.h - 1 : Nat), (0 : Nat)))).2 ⟨by omega, hw⟩)
    have h2 := le_maxD h1
    rcases List.mem_map.1 (maxD_mem hfne) with ⟨p, hp, hmax⟩
    have h3 := (mem_allPix.1 hp).1
    omega
  have hcmax : maxD ((allPix m).map Prod.snd) = m.w - 1 := by
    have h1 : (m.w - 1 : Nat) ∈ (allPix m).map Prod.snd :=
      List.mem_map_of_mem Prod.snd
        ((mem_allPix (m := m) (p := ((0 : Nat), (m.w - 1 : Nat)))).2 ⟨hh, by omega⟩)
    have h2 := le_maxD h1
    rcases List.mem_map.1 (maxD_mem hsne) with ⟨p, hp, hmax⟩
    have h3 := (mem_allPix.1 hp).2
    omega
  refine ⟨?_, ?_, ?_⟩
  · show maxD ((allPix m).map Prod.fst) + 1 - minD ((allPix m).map Prod.fst) = m.h
    rw [hrmax, hrmin]
    omega
  · show maxD ((allPix m).map Prod.snd) + 1 - minD ((allPix m).map Prod.snd) = m.w
    rw [hcmax, hcmin]
    omega
  · intro i j
    show (allPix m).contains (minD ((allPix m).map Prod.fst) + i,
      minD ((allPix m).map Prod.snd) + j) = true ↔ _
    rw [hrmin, hcmin]
    constructor
    · intro h
      have := mem_allPix.1 (List.mem_of_elem_eq_true h)
      simpa using this
    · intro h
      exact List.elem_eq_true_of_mem (mem_allPix.2 (by simpa using h))

theorem extract_characters_full {m : Bitmap} (hh : 5 < m.h) (hw : 2 < m.w)
    (hall : ∀ i j, i < m.h → j < m.w → m.data i j = true) :
    extract_characters m = [charBitmap (allPix m)] := by
  rcases charBitmap_allPix (m := m) (by omega) (by omega) with ⟨hbh, hbw, _⟩
  unfold extract_characters validChars
  rw [componentsOf_full (by omega) (by omega) hall]
  rw [List.filterMap_cons, List.filterMap_nil]
  rw [if_pos (by
    rw [Bool.and_eq_true]
    constructor
    · rw [decide_eq_true_eq, hbh]
      exact hh
    · rw [decide_eq_true_eq, hbw]
      exact hw)]
  rfl

theorem bbox_full {b : Bitmap} (hh : 0 < b.h) (hw : 0 < b.w)
    (hdata : ∀ i j, b.data i j = true ↔ (i < b.h ∧ j < b.w)) :
    hasTrue b ∧ rminOf b = 0 ∧ rmaxOf b = b.h - 1
      ∧ cminOf b = 0 ∧ cmaxOf b = b.w - 1 := by
  have hT : hasTrue b := ⟨0, 0, hh, hw, (hdata 0 0).2 ⟨hh, hw⟩⟩
  have hrow : ∀ i, rowsAny b i = true ↔ i < b.h := by
    intro i
    rw [rowsAny_iff]
    constructor
    · rintro ⟨j, hj, hd⟩
      exact ((hdata i j).1 hd).1
    · intro hi
      exact ⟨0, hw, (hdata i 0).2 ⟨hi, hw⟩⟩
  have hcol : ∀ j, colsAny b j = true ↔ j < b.w := by
    intro j
    rw [colsAny_iff]
    constructor
    · rintro ⟨i, hi, hd⟩
      exact ((hdata i j).1 hd).2
    · intro hj
      exact ⟨0, hh, (hdata 0 j).2 ⟨hh, hj⟩⟩
  rcases rbox_spec hT with ⟨hr1, hr2, _, _, _, hr6⟩
  rcases cbox_spec hT with ⟨hc1, hc2, _, _, _, hc6⟩
  refine ⟨hT, ?_, ?_, ?_, ?_⟩
  · have := (hr6 0 hh ((hrow 0).2 hh)).1
    omega
  · have := (hr6 (b.h - 1) (by omega) ((hrow _).2 (by omega))).2
    omega
  · have := (hc6 0 hw ((hcol 0).2 hw)).1
    omega
  · have := (hc6 (b.w - 1) (by omega) ((hcol _).2 (by omega))).2
    omega

theorem normalize_full_raised {b : Bitmap} (hh : 0 < b.h) (hw : 0 < b.w)
    (hrat : 40 * b.h < b.w)
    (hdata : ∀ i j, b.data i j = true ↔ (i < b.h ∧ j < b.w)) (r : Resample) :
    normalize_char r b = NormOut.raised := by
  rcases bbox_full hh hw hdata with ⟨hT, e1, e2, e3, e4⟩
  have hch : (cropOf b).h = b.h := by
    show rmaxOf b + 1 - rminOf b = b.h
    rw [e1, e2]
    omega
  have hcw : (cropOf b).w = b.w := by
    show cmaxOf b + 1 - cminOf b = b.w
    rw [e3, e4]
    omega
  have hnewH : newHOf b = 0 := by
    rw [newHOf_eq hT, hch, hcw]
    rw [Nat.max_eq_right (by omega : b.h ≤ b.w)]
    exact Nat.div_eq_of_lt (by omega)
  exact normalize_char_raised hT (Or.inl hnewH)

theorem recognize_char_raised {r : Resample} {db : TemplateDB} {b : Bitmap}
    (h : normalize_char r b = NormOut.raised) :
    recognize_char r db b = Except.error () := by
  unfold recognize_char
  rw [h]

theorem redImg_mask_data {h w : Nat} (i j : Nat) :
    (extract_red_mask (redImg h w)).data i j = true := by
  have ht : ∀ x y : Nat, threshAt (redImg h w) x y = true := fun x y => rfl
  show decide (5 ≤ medianCount (redImg h w) i j) = true
  have hmc : medianCount (redImg h w) i j = 9 := by
    unfold medianCount
    rw [List.filter_congr fun d _ => ht _ _]
    rfl
  rw [hmc]
  rfl

theorem recognize_redImg_error {h w : Nat} (r : Resample) (db : TemplateDB)
    (hh : 5 < h) (hw : 2 < w) (hrat : 40 * h < w) :
    recognize r db (redImg h w) = Except.error () := by
  have hmdim : (extract_red_mask (redImg h w)).h = h ∧ (extract_red_mask (redImg h w)).w = w :=
    ⟨rfl, rfl⟩
  have hchars : extract_characters (extract_red_mask (redImg h w))
      = [charBitmap (allPix (extract_red_mask (redImg h w)))] := by
    refine extract_characters_full ?_ ?_ ?_
    · rw [hmdim.1]
      exact hh
    · rw [hmdim.2]
      exact hw
    · intro i j _ _
      exact redImg_mask_data i j
  rcases charBitmap_allPix (m := extract_red_mask (redImg h w))
      (by rw [hmdim.1]; omega) (by rw [hmdim.2]; omega) with ⟨hbh, hbw, hbd⟩
  have hraised : normalize_char r (charBitmap (allPix (extract_red_mask (redImg h w))))
      = NormOut.raised := by
    refine normalize_full_raised ?_ ?_ ?_ ?_ r
    · rw [hbh, hmdim.1]
      omega
    · rw [hbw, hmdim.2]
      omega
    · rw [hbh, hbw, hmdim.1, hmdim.2]
      exact hrat
    · intro i j
      rw [hbd i j, hbh, hbw, hmdim.1, hmdim.2]
  unfold recognize
  rw [hchars]
  rw [List.foldl_cons, List.foldl_nil]
  rw [recognize_char_raised hraised]

/-! Concrete evaluation helpers for the witnesses and counterexamples. -/

theorem aOne_hasTrue : hasTrue aOne :=
  ⟨0, 0, Nat.one_pos, Nat.one_pos, rfl⟩

theorem aOne_newH : newHOf aOne = 40 := by
  rw [newHOf_eq aOne_hasTrue]
  rfl

theorem aOne_newW : newWOf aOne = 40 := by
  rw [newWOf_eq aOne_hasTrue]
  rfl

theorem aOne_norm : normalize_char rZero aOne = NormOut.ok (fun i j =>
    decide ((40 - 40) / 2 ≤ i) && decide (i < (40 - 40) / 2 + 40)
      && decide ((40 - 40) / 2 ≤ j) && decide (j < (40 - 40) / 2 + 40)
      && decide (128 < rZero (cropOf aOne) 40 40
          (i - (40 - 40) / 2) (j - (40 - 40) / 2))) := by
  have h := normalize_char_ok (r := rZero) (a := aOne) aOne_hasTrue
    (by rw [aOne_newH]; omega) (by rw [aOne_newW]; omega)
  simp only [aOne_newH, aOne_newW] at h
  exact h

theorem aOne_norm_ok : normOk (normalize_char rZero aOne) = true := by
  rw [aOne_norm]
  rfl

theorem aOne_zero_union :
    ((dbPairs dbA).all fun ct =>
      unionCount (theGlyph (normalize_char rZero aOne)) ct.2 == 0) = true := by
  rw [aOne_norm]
  decide

theorem headD_map_fst (g : Glyph) (l : List (String × Bitmap)) :
    ((l.map fun ct => (ct.1, score g ct.2)).headD ("?", -1)).1
      = (l.map Prod.fst).headD "?" := by
  cases l <;> rfl

/-! The claim theorems. -/

/-- C1, amended: when normalization yields a glyph and every stored
template has zero union with it, `recognize_char` returns "?" only when
the database holds no (label, template) pair at all; with a nonempty
database every zero-union template scores 0, which beats the -1
sentinel, so the first-enumerated label is returned instead of "?". -/
theorem claim_C1 (r : Resample) (db : TemplateDB) (a : Bitmap)
    (hok : normOk (normalize_char r a) = true)
    (hz : ((dbPairs db).all fun ct =>
      unionCount (theGlyph (normalize_char r a)) ct.2 == 0) = true) :
    recognize_char r db a = Except.ok (((dbPairs db).map Prod.fst).headD "?") := by
  cases hnc : normalize_char r a with
  | noForm =>
    rw [hnc] at hok
    exact absurd hok (by simp [normOk])
  | raised =>
    rw [hnc] at hok
    exact absurd hok (by simp [normOk])
  | ok g =>
    unfold recognize_char
    rw [hnc]
    rw [hnc] at hz
    have hz2 : ∀ ct ∈ dbPairs db, score g ct.2 = 0 := by
      intro ct hct
      have h1 := List.all_eq_true.1 hz ct hct
      rw [beq_iff_eq] at h1
      exact score_zero_of_union_zero h1
    show Except.ok (bestFold g (dbPairs db)).1
      = Except.ok (((dbPairs db).map Prod.fst).headD "?")
    rw [bestFold_all_zero g _ hz2, headD_map_fst]

/-- C1 witness: a concrete glyph, with a database holding one
all-background template, is classified as the first label "a". -/
theorem claim_C1_witness :
    recognize_char rZero dbA aOne
      = Except.ok (((dbPairs dbA).map Prod.fst).headD "?") :=
  claim_C1 rZero dbA aOne aOne_norm_ok aOne_zero_union

/-- C1 counterexample: the database holds one template with zero union
with the normalized glyph, yet `recognize_char` returns the label "a",
not the unresolved marker "?", because score 0 beats the -1 sentinel. -/
theorem claim_C1_counterexample :
    normOk (normalize_char rZero aOne) = true
      ∧ ((dbPairs dbA).all fun ct =>
          unionCount (theGlyph (normalize_char rZero aOne)) ct.2 == 0) = true
      ∧ recognize_char rZero dbA aOne = Except.ok "a"
      ∧ ("a" : String) ≠ "?" := by
  refine ⟨aOne_norm_ok, aOne_zero_union, ?_, by decide⟩
  have h := claim_C1 rZero dbA aOne aOne_norm_ok aOne_zero_union
  exact h

/-- C2: when the extracted foreground mask of an image is entirely
false, the segmenter yields no components and `recognize` returns the
empty string, for every template database. -/
theorem claim_C2 (r : Resample) (db : TemplateDB) (img : RGBImage)
    (hm : ∀ i j, i < img.h → j < img.w → (extract_red_mask img).data i j = false) :
    recognize r db img = Except.ok "" := by
  unfold recognize
  rw [extract_characters_nil (m := extract_red_mask img) fun i j hi hj => hm i j hi hj]
  rfl

/-- C2 witness: a 1x1 all-black image recognizes to the empty string. -/
theorem claim_C2_witness : recognize rZero dbA imgBlack = Except.ok "" := by
  refine claim_C2 rZero dbA imgBlack ?_
  intro i j hi hj
  have hi1 : i < 1 := hi
  have hj1 : j < 1 := hj
  have hi0 : i = 0 := by omega
  have hj0 : j = 0 := by omega
  subst hi0
  subst hj0
  rfl

/-- C4, amended: for a mask with a foreground pixel the normalizer
computes the tight bounding box, scales by the uniform factor
`min(40/h, 40/w)` (equivalently `d * 40 / max h w` per dimension, never
exceeding 40), and, provided both scaled dimensions are nonzero, pastes
the re-binarized (byte > 128) resample into a zero canvas at offsets
`(40-new_h)/2` and `(40-new_w)/2`; the result depends only on the
in-bounds pixels of the input.  When a scaled dimension is 0 (aspect
ratio beyond 40:1), Pillow's resize raises instead. -/
theorem claim_C4 (r : Resample) (a : Bitmap) (ht : hasTrue a) :
    (rowsAny a (rminOf a) = true ∧ rowsAny a (rmaxOf a) = true
      ∧ (∀ i, i < a.h → rowsAny a i = true → rminOf a ≤ i ∧ i ≤ rmaxOf a)
      ∧ colsAny a (cminOf a) = true ∧ colsAny a (cmaxOf a) = true
      ∧ (∀ j, j < a.w → colsAny a j = true → cminOf a ≤ j ∧ j ≤ cmaxOf a))
    ∧ newHOf a = (cropOf a).h * 40 / max (cropOf a).h (cropOf a).w
    ∧ newWOf a = (cropOf a).w * 40 / max (cropOf a).h (cropOf a).w
    ∧ newHOf a ≤ 40 ∧ newWOf a ≤ 40
    ∧ ((newHOf a = 0 ∨ newWOf a = 0) → normalize_char r a = NormOut.raised)
    ∧ (newHOf a ≠ 0 → newWOf a ≠ 0 →
        ∃ g, normalize_char r a = NormOut.ok g
          ∧ (∀ i j, (40 - newHOf a) / 2 ≤ i → i < (40 - newHOf a) / 2 + newHOf a →
              (40 - newWOf a) / 2 ≤ j → j < (40 - newWOf a) / 2 + newWOf a →
              (g i j = true ↔ 128 < r (cropOf a) (newHOf a) (newWOf a)
                (i - (40 - newHOf a) / 2) (j - (40 - newWOf a) / 2)))
          ∧ (∀ i j, (i < (40 - newHOf a) / 2 ∨ (40 - newHOf a) / 2 + newHOf a ≤ i
              ∨ j < (40 - newWOf a) / 2 ∨ (40 - newWOf a) / 2 + newWOf a ≤ j) →
              g i j = false))
    ∧ (∀ a2, sameMask a a2 → normalize_char r a = normalize_char r a2) := by
  rcases rbox_spec ht with ⟨_, _, _, hr4, hr5, hr6⟩
  rcases cbox_spec ht with ⟨_, _, _, hc4, hc5, hc6⟩
  refine ⟨⟨hr4, hr5, hr6, hc4, hc5, hc6⟩, newHOf_eq ht, newWOf_eq ht,
    (newHOf_le_40 ht).1, (newHOf_le_40 ht).2, fun h0 => normalize_char_raised ht h0,
    ?_, fun a2 hs => normalize_char_congr hs⟩
  intro hH hW
  refine ⟨_, normalize_char_ok ht hH hW, ?_, ?_⟩
  · intro i j h1 h2 h3 h4
    simp only [decide_eq_true h1, decide_eq_true h2, decide_eq_true h3, decide_eq_true h4,
      Bool.true_and, decide_eq_true_eq]
  · intro i j hout
    rcases hout with h | h | h | h
    · rw [decide_eq_false (by omega : ¬ ((40 - newHOf a) / 2 ≤ i))]
      rfl
    · rw [decide_eq_false (by omega : ¬ (i < (40 - newHOf a) / 2 + newHOf a))]
      simp
    · rw [decide_eq_false (by omega : ¬ ((40 - newWOf a) / 2 ≤ j))]
      simp
    · rw [decide_eq_false (by omega : ¬ (j < (40 - newWOf a) / 2 + newWOf a))]
      simp

/-- C4 witness: the single-pixel mask normalizes with scaled dimensions
40x40 and zero offsets. -/
theorem claim_C4_witness :
    newHOf aOne = (cropOf aOne).h * 40 / max (cropOf aOne).h (cropOf aOne).w
      ∧ newHOf aOne ≤ 40 :=
  ⟨(claim_C4 rZero aOne aOne_hasTrue).2.1, (claim_C4 rZero aOne aOne_hasTrue).2.2.2.1⟩

/-- C4 counterexample: a 6x241 all-foreground mask (a legitimate
component: height > 5, width > 2) has a foreground pixel, yet the
normalizer does not produce a canvas: the scaled height
`int(6 * min(40/6, 40/241)) = 0` makes Pillow's resize raise. -/
theorem claim_C4_counterexample :
    hasTrue (fullMask 6 241)
      ∧ normalize_char rZero (fullMask 6 241) = NormOut.raised := by
  have hT : hasTrue (fullMask 6 241) := ⟨0, 0, by decide, by decide, rfl⟩
  refine ⟨hT, ?_⟩
  refine normalize_char_raised hT (Or.inl ?_)
  rw [newHOf_eq hT]
  rfl

set_option maxRecDepth 1000000 in
set_option maxHeartbeats 64000000 in
/-- C3: adjacency steps are axis-aligned unit steps (4-connectivity, no
diagonals); every emitted component is internally 4-connected and closed
under 4-adjacency; every surviving glyph candidate has bounding-box
height > 5 and width > 2; candidates are sorted by starting column
ascending; and the synthetic two-blob mask (2x10 noise at columns 0-9,
10x20 blob at columns 20-39) yields exactly one component. -/
theorem claim_C3 :
    (∀ (m : Bitmap) (p q : Pix), stepP m p q →
        (q.1 = p.1 + 1 ∧ q.2 = p.2) ∨ (q.2 = p.2 + 1 ∧ q.1 = p.1)
          ∨ (q.1 + 1 = p.1 ∧ q.2 = p.2) ∨ (q.2 + 1 = p.2 ∧ q.1 = p.1))
      ∧ (∀ m : Bitmap, ∀ c ∈ componentsOf m,
          (∀ p ∈ c, ∀ q ∈ c, connTo m p q) ∧ ∀ p ∈ c, ∀ q, stepP m p q → q ∈ c)
      ∧ (∀ (m : Bitmap) (i : Nat), i < (extract_characters m).length →
          5 < ((extract_characters m).getD i default).h
            ∧ 2 < ((extract_characters m).getD i default).w)
      ∧ (∀ m : Bitmap, List.Pairwise (fun x y => x.1 ≤ y.1) (validChars m))
      ∧ (extract_characters mEx).length = 1 := by
  refine ⟨?_, ?_, ?_, ?_, ?_⟩
  · intro m p q hst
    exact mem_nbrs.1 hst.2.2
  · intro m c hc
    obtain ⟨p0, hp0, rfl⟩ := componentsOf_shape c hc
    constructor
    · intro p hp q hq
      rcases (comp_mem hp0).1 hp with ⟨_, hcp⟩
      rcases (comp_mem hp0).1 hq with ⟨_, hcq⟩
      exact connTo_trans (connTo_symm hcp) hcq
    · intro p hp q hst
      rcases (comp_mem hp0).1 hp with ⟨_, hcp⟩
      exact (comp_mem hp0).2 ⟨hst.2.1, hcp.tail hst⟩
  · intro m i hi
    have hget : (extract_characters m).getD i default ∈ extract_characters m := by
      rw [List.getD_eq_getElem _ _ hi]
      exact List.getElem_mem hi
    rcases mem_extract_characters.1 hget with ⟨c, _, h5, h2, hb⟩
    rw [hb]
    exact ⟨h5, h2⟩
  · intro m
    exact pySort_sorted
  · decide

/-- C3 witness: the single 7x4 component of the small all-foreground
mask passes the size filter. -/
theorem claim_C3_witness :
    5 < ((extract_characters mSmall).getD 0 default).h
      ∧ 2 < ((extract_characters mSmall).getD 0 default).w :=
  claim_C3.2.2.1 mSmall 0 (by decide)

/-- C5, amended: a normalized glyph with at least one foreground pixel
that is bit-identical to a stored template scores 1.0 against that
template, the classifier's best score is 1.0, and the returned label is
one that owns a template bit-identical to the glyph (the first such
label in enumeration order on ties). -/
theorem claim_C5 (db : TemplateDB) (g : Glyph) (c : String) (t : Bitmap)
    (_hwf : wellFormedB db = true) (hc : 0 < countGrid g)
    (hmem : (c, t) ∈ dbPairs db) (hident : gridEq g t = true) :
    score g t = 1
      ∧ (bestFold g (dbPairs db)).2 = 1
      ∧ ∃ c2 t2, (c2, t2) ∈ dbPairs db ∧ (bestFold g (dbPairs db)).1 = c2
          ∧ gridEq g t2 = true := by
  have h1 : score g t = 1 := score_eq_one_of_gridEq hident hc
  rcases bestFold_spec g (dbPairs db) with ⟨hcases, _, hge⟩
  have hgem : score g t ≤ (bestFold g (dbPairs db)).2 := hge (c, t) hmem
  rcases hcases with hinit | ⟨ct, hctmem, hbest⟩
  · rw [hinit, h1] at hgem
    simp at hgem
    exact absurd hgem (by norm_num)
  · have hb2 : (bestFold g (dbPairs db)).2 = score g ct.2 := by rw [hbest]
    have h2 : (bestFold g (dbPairs db)).2 = 1 :=
      le_antisymm (by rw [hb2]; exact score_le_one) (by rw [← h1]; exact hgem)
    have hscore : score g ct.2 = 1 := by rw [← hb2, h2]
    rcases score_one_gridEq hscore with ⟨hgeq, _⟩
    refine ⟨h1, h2, ct.1, ct.2, hctmem, ?_, hgeq⟩
    rw [hbest]

/-- C5 witness: a one-dot glyph stored under label "x" is matched with
score 1.0. -/
theorem claim_C5_witness :
    score gDot tDot = 1
      ∧ (bestFold gDot (dbPairs dbX)).2 = 1
      ∧ ∃ c2 t2, (c2, t2) ∈ dbPairs dbX ∧ (bestFold gDot (dbPairs dbX)).1 = c2
          ∧ gridEq gDot t2 = true :=
  claim_C5 dbX gDot "x" tDot (by decide) (by decide)
    (by show ("x", tDot) ∈ [("x", tDot)]; exact List.mem_cons_self _ _) (by decide)

/-- C5 counterexample: the all-false glyph is bit-identical to the
stored all-false template, yet its similarity against that template is
0, not 1.0, because of the union-zero guard. -/
theorem claim_C5_counterexample :
    gridEq (fun _ _ => false) tFalse = true
      ∧ score (fun _ _ => false) tFalse = 0
      ∧ score (fun _ _ => false) tFalse ≠ 1 := by
  have h0 : score (fun _ _ => false) tFalse = 0 :=
    score_zero_of_union_zero (by decide)
  exact ⟨by decide, h0, by rw [h0]; norm_num⟩

/-- C6, amended: the Jaccard score is symmetric and lies in [0, 1];
identical bitmaps with at least one foreground pixel score 1.0;
bitmaps with no overlapping foreground score 0.0; any bitmap scores 0.0
against an all-false template; identical all-false bitmaps score 0, by
the union-zero guard, rather than 1.0. -/
theorem claim_C6 :
    (∀ f g : Glyph, score f (toBitmap g) = score g (toBitmap f))
      ∧ (∀ (g : Glyph) (t : Bitmap), 0 ≤ score g t ∧ score g t ≤ 1)
      ∧ (∀ g : Glyph, 0 < countGrid g → score g (toBitmap g) = 1)
      ∧ (∀ (g : Glyph) (t : Bitmap),
          (∀ i j, i < 40 → j < 40 → ¬(g i j = true ∧ t.data i j = true)) → score g t = 0)
      ∧ (∀ (g : Glyph) (t : Bitmap),
          (∀ i j, i < 40 → j < 40 → t.data i j = false) → score g t = 0) := by
  refine ⟨fun f g => score_symm, fun g t => ⟨score_nonneg, score_le_one⟩, ?_, ?_, ?_⟩
  · intro g hc
    exact score_eq_one_of_gridEq (gridEq_iff.2 fun i j _ _ => rfl) hc
  · intro g t hd
    exact score_zero_of_disjoint hd
  · intro g t hf
    refine score_zero_of_inter_zero ?_
    unfold interCount
    rw [countGrid_congr (g := fun _ _ => false)
      fun i j hi hj => by rw [hf i j hi hj, Bool.and_false], countGrid_false]

/-- C6 witness: a nonempty glyph scores 1.0 against itself. -/
theorem claim_C6_witness : score gDot (toBitmap gDot) = 1 :=
  claim_C6.2.2.1 gDot (by decide)

/-- C6 counterexample: identical all-false bitmaps score 0, not 1.0. -/
theorem claim_C6_counterexample :
    score (fun _ _ => false) (toBitmap fun _ _ => false) = 0
      ∧ score (fun _ _ => false) (toBitmap fun _ _ => false) ≠ 1 := by
  have h0 : score (fun _ _ => false) (toBitmap fun _ _ => false) = 0 :=
    score_zero_of_union_zero (by decide)
  exact ⟨h0, by rw [h0]; norm_num⟩

/-- C7, amended: the loader fails with the missing-database error when
the store file is absent and propagates the deserialization failure
when unpickling raises; but it performs no shape validation: any
successfully deserialized mapping, including one whose bitmaps are not
40x40, yields a recognizer. -/
theorem claim_C7 :
    load_recognizer none = Except.error LoadError.fileNotFound
      ∧ (∀ e : Unit, load_recognizer (some (Except.error e))
          = Except.error LoadError.unpickling)
      ∧ (∀ db : TemplateDB, load_recognizer (some (Except.ok db)) = Except.ok ⟨db⟩) :=
  ⟨rfl, fun _ => rfl, fun _ => rfl⟩

/-- C7 counterexample: a store holding a 30x30 template deserializes to
a mapping that violates the fixed 40x40 shape, yet the loader returns a
recognizer instead of failing with a corrupt-database error. -/
theorem claim_C7_counterexample :
    wellFormedB dbBad = false
      ∧ load_recognizer (some (Except.ok dbBad)) = Except.ok ⟨dbBad⟩ :=
  ⟨by decide, rfl⟩

/-- C8: the spec's no-exception guarantee fails on the code: an all-red
image whose single component has aspect ratio beyond 40:1 drives the
scaled height to 0, Pillow's resize raises ValueError, and the
exception escapes `recognize`. -/
theorem claim_C8 (h w : Nat) (r : Resample) (db : TemplateDB)
    (hh : 5 < h) (hw : 2 < w) (hrat : 40 * h < w) :
    recognize r db (redImg h w) = Except.error () :=
  recognize_redImg_error r db hh hw hrat

/-- C8 witness: the concrete all-red 6x241 image makes `recognize`
propagate the exception. -/
theorem claim_C8_witness : recognize rZero dbA (redImg 6 241) = Except.error () :=
  claim_C8 6 241 rZero dbA (by decide) (by decide) (by decide)

/-- C9: a mask pixel is foreground exactly when the majority (at least
5 of 9) of its 3x3 reflected neighborhood passes the color threshold
(red > 100, green < 140, blue < 140), and the mask has the same
dimensions as the image. -/
theorem claim_C9 (img : RGBImage) :
    (extract_red_mask img).h = img.h ∧ (extract_red_mask img).w = img.w
      ∧ ∀ i j, ((extract_red_mask img).data i j = true
        ↔ 5 ≤ window3.countP fun d =>
            decide (specFG img (reflectIdx img.h ((i : Int) + d.1))
              (reflectIdx img.w ((j : Int) + d.2)))) :=
  ⟨rfl, rfl, fun i j => extract_red_mask_spec img i j⟩

/-- C10: every glyph candidate the segmenter emits contains a
foreground pixel, so the normalizer's no-foreground branch is
unreachable from `recognize`: normalization never returns the
no-normalized-form result on a pipeline component. -/
theorem claim_C10 (m : Bitmap) (i : Nat) (hi : i < (extract_characters m).length) :
    (∃ a b, a < ((extract_characters m).getD i default).h
      ∧ b < ((extract_characters m).getD i default).w
      ∧ ((extract_characters m).getD i default).data a b = true)
    ∧ ∀ r : Resample,
        normalize_char r ((extract_characters m).getD i default) ≠ NormOut.noForm := by
  have hmem : (extract_characters m).getD i default ∈ extract_characters m := by
    rw [List.getD_eq_getElem _ _ hi]
    exact List.getElem_mem hi
  rcases mem_extract_characters.1 hmem with ⟨c, hcm, _, _, hb⟩
  obtain ⟨p0, hp0, rfl⟩ := componentsOf_shape c hcm
  have hpin : p0 ∈ comp m p0 := comp_self_mem hp0
  rcases charBitmap_pix hpin with ⟨hx1, hx2, hx3⟩
  have hT : hasTrue ((extract_characters m).getD i default) := by
    rw [hb]
    exact ⟨_, _, hx1, hx2, hx3⟩
  constructor
  · rcases hT with ⟨x, y, h1, h2, h3⟩
    exact ⟨x, y, h1, h2, h3⟩
  · intro r hnf
    exact (normalize_char_noForm_iff.1 hnf) hT

/-- C10 witness: the single component of the small all-foreground mask
holds a foreground pixel and always normalizes to a non-degenerate
outcome. -/
theorem claim_C10_witness :
    (∃ a b, a < ((extract_characters mSmall).getD 0 default).h
      ∧ b < ((extract_characters mSmall).getD 0 default).w
      ∧ ((extract_characters mSmall).getD 0 default).data a b = true)
    ∧ ∀ r : Resample,
        normalize_char r ((extract_characters mSmall).getD 0 default) ≠ NormOut.noForm :=
  claim_C10 mSmall 0 (by decide)

end Captcha
